import Mathlib


set_option autoImplicit false


namespace ProjectGraph


/-!
Shallow embedding of the `ProjectKnowledgeGraph` dependency-graph builder
(`src/index.ts`): POSIX path arithmetic (`path.resolve`, `path.dirname`,
`path.relative`), the TypeScript-AST walk of `parseFile`, discovery
(`getAllFiles`), resolution (`resolvePath`), `build`, and the two query
operations `getRelationships` and `getSummary`.
-/

/-- Splitting a character list on the path separator `/`.  Models the
segment decomposition that Node's `path.resolve` performs. -/
def splitSegCh : List Char → List (List Char)
  | [] => [[]]
  | c :: cs =>
    if c = '/' then [] :: splitSegCh cs
    else
      match splitSegCh cs with
      | s :: ss => (c :: s) :: ss
      | [] => [[c]]

/-- Joining path segments with `/` (inverse direction of `splitSegCh`). -/
def joinSegCh : List (List Char) → List Char
  | [] => []
  | [s] => s
  | s :: rest => s ++ '/' :: joinSegCh rest

/-- Normalisation of path segments as done by Node's `path.resolve` on an
absolute path: empty segments and `.` are dropped, `..` pops the previous
segment (and is absorbed at the root). -/
def normSegsAux (acc : List (List Char)) : List (List Char) → List (List Char)
  | [] => acc
  | s :: rest =>
    if s = [] ∨ s = ['.'] then normSegsAux acc rest
    else if s = ['.', '.'] then normSegsAux acc.dropLast rest
    else normSegsAux (acc ++ [s]) rest

def normSegs (l : List (List Char)) : List (List Char) := normSegsAux [] l

/-- Canonical (absolute, normalised) form of a path, as produced by
`path.resolve` on an absolute input. -/
def canon (p : String) : String := ⟨'/' :: joinSegCh (normSegs (splitSegCh p.data))⟩

/-- Model of `String.prototype.startsWith`. -/
def strStartsWith (s pre : String) : Bool := pre.data.isPrefixOf s.data

/-- Model of `String.prototype.endsWith`. -/
def strEndsWith (s suf : String) : Bool := suf.data.isSuffixOf s.data

/-- Model of Node's `path.resolve(dir, rel)` for an absolute `dir`. -/
def pathResolve (dir rel : String) : String :=
  if strStartsWith rel "/" then canon rel else canon (dir ++ "/" ++ rel)

/-- Model of Node's `path.dirname` on a canonical absolute path. -/
def dirname (p : String) : String :=
  ⟨'/' :: joinSegCh (((splitSegCh p.data).dropLast).filter (fun s => s ≠ []))⟩

/-- Segment-level core of `path.relative`: strip the common prefix, then
one `..` per remaining segment of the base, followed by the remaining
segments of the target. -/
def relSegs : List (List Char) → List (List Char) → List (List Char)
  | [], ps => ps
  | r :: rs, [] => (r :: rs).map (fun _ => ['.', '.'])
  | r :: rs, p :: ps =>
    if r = p then relSegs rs ps
    else ((r :: rs).map (fun _ => ['.', '.'])) ++ p :: ps

def cleanSegs (p : String) : List (List Char) := normSegs (splitSegCh p.data)

/-- Model of Node's `path.relative(root, p)` for absolute arguments. -/
def pathRelative (root p : String) : String :=
  ⟨joinSegCh (relSegs (cleanSegs root) (cleanSegs p))⟩

/-! ### The TypeScript syntax tree, as far as `parseFile`'s visitor inspects it -/

/-- An expression position that may or may not hold a string literal
(module specifiers, call arguments). -/
inductive SpecExpr where
  | strLit (s : String)
  | nonLit
  deriving DecidableEq, Repr

/-- The callee of a call expression, as far as the visitor distinguishes it:
the `import` keyword, a plain identifier, or anything else. -/
inductive CallTarget where
  | importKw
  | ident (name : String)
  | otherExpr
  deriving DecidableEq, Repr

/-- Syntax-tree nodes, covering exactly the node categories the `visit`
closure of `ProjectKnowledgeGraph.parseFile` dispatches on; every other
node kind is `otherNode`.  Comments are trivia in the TypeScript tree and
are not nodes at all, so they have no constructor. -/
inductive Ast where
  | functionDecl (name : Option String) (exported : Bool) (children : List Ast)
  | classDecl (name : Option String) (exported : Bool) (children : List Ast)
  | variableStatement (exported : Bool) (declNames : List (Option String)) (children : List Ast)
  | importDecl (spec : Option SpecExpr) (children : List Ast)
  | exportDecl (spec : Option SpecExpr) (children : List Ast)
  | callExpr (target : CallTarget) (args : List SpecExpr) (children : List Ast)
  | otherNode (children : List Ast)
  deriving Repr

/-- The module specifier contributed by an import/export declaration:
pushed only when present and a string literal. -/
def specRef : Option SpecExpr → List String
  | some (.strLit s) => [s]
  | _ => []

/-- The module specifier contributed by a call expression: `import('...')`
with a literal first argument, or `require('...')` with a literal first
argument. -/
def callRef : CallTarget → List SpecExpr → List String
  | .importKw, .strLit s :: _ => [s]
  | .ident n, .strLit s :: _ => if n = "require" then [s] else []
  | _, _ => []

mutual

/-- The raw module references collected by the `visit` closure, in
pre-order: the node's own contribution, then its children's. -/
def collectImports : Ast → List String
  | .importDecl spec children => specRef spec ++ collectImportsList children
  | .exportDecl spec children => specRef spec ++ collectImportsList children
  | .callExpr target args children => callRef target args ++ collectImportsList children
  | .functionDecl _ _ children => collectImportsList children
  | .classDecl _ _ children => collectImportsList children
  | .variableStatement _ _ children => collectImportsList children
  | .otherNode children => collectImportsList children

def collectImportsList : List Ast → List String
  | [] => []
  | a :: as => collectImports a ++ collectImportsList as

end

/-- The `var:`-tagged names of the identifier declarators of an exported
variable statement. -/
def declVars : List (Option String) → List String
  | [] => []
  | some n :: rest => ("var:" ++ n) :: declVars rest
  | none :: rest => declVars rest

mutual

/-- The exported-symbol strings collected by the `visit` closure, in
pre-order. -/
def collectSymbols : Ast → List String
  | .functionDecl name exported children =>
    (match name with
     | some n => if exported then ["function:" ++ n] else []
     | none => []) ++ collectSymbolsList children
  | .classDecl name exported children =>
    (match name with
     | some n => if exported then ["class:" ++ n] else []
     | none => []) ++ collectSymbolsList children
  | .variableStatement exported declNames children =>
    (if exported then declVars declNames else []) ++ collectSymbolsList children
  | .importDecl _ children => collectSymbolsList children
  | .exportDecl _ children => collectSymbolsList children
  | .callExpr _ _ children => collectSymbolsList children
  | .otherNode children => collectSymbolsList children

def collectSymbolsList : List Ast → List String
  | [] => []
  | a :: as => collectSymbols a ++ collectSymbolsList as

end

/-! ### The graph store: an insertion-ordered map from canonical path to node -/

/-- One file node of the graph (`FileNode` in the source). -/
structure FileNode where
  path : String
  imports : List String
  importedBy : List String
  symbols : List String
  deriving DecidableEq, Repr

/-- The graph: the insertion-ordered entry list of the `Map<string, FileNode>`,
keyed by `path`. -/
abbrev Graph := List FileNode

/-- `Map.get`. -/
def mapGet (g : Graph) (k : String) : Option FileNode := g.find? (fun n => n.path == k)

/-- `Map.has`. -/
def mapHas (g : Graph) (k : String) : Bool := g.any (fun n => n.path == k)

/-- `Map.set`: overwrite in place if the key exists, else append. -/
def mapSet (g : Graph) (k : String) (v : FileNode) : Graph :=
  if mapHas g k then g.map (fun n => if n.path == k then v else n) else g ++ [v]

/-- In-place mutation of the node stored under `k` (the source mutates the
live object returned by `Map.get`). -/
def mapUpdate (g : Graph) (k : String) (f : FileNode → FileNode) : Graph :=
  g.map (fun n => if n.path == k then f n else n)

/-- `if (!currentNode.imports.includes(resolvedPath)) currentNode.imports.push(resolvedPath)`. -/
def pushImport (n : FileNode) (t : String) : FileNode :=
  if t ∈ n.imports then n else { n with imports := n.imports ++ [t] }

/-- `if (!….importedBy.includes(filePath)) ….importedBy.push(filePath)`. -/
def pushImportedBy (n : FileNode) (f : String) : FileNode :=
  if f ∈ n.importedBy then n else { n with importedBy := n.importedBy ++ [f] }

/-- Second half of recording an edge: the target's importedBy gains `fr`. -/
def edgeStepIB (t fr : String) (n1 : FileNode) : FileNode :=
  if n1.path == t then pushImportedBy n1 fr else n1

/-- Effect on one node of recording the edge `fr → t`: the origin's imports
gain `t` (duplicate-suppressed), then the target's importedBy gains `fr`
(the source performs these two guarded pushes in this order). -/
def edgeStep (fr t : String) (n : FileNode) : FileNode :=
  edgeStepIB t fr (if n.path == fr then pushImport n t else n)

/-- Recording one resolved edge in the graph. -/
def recordEdge (g : Graph) (fr t : String) : Graph := g.map (edgeStep fr t)

/-! ### Discovery (`getAllFiles`) -/

mutual

/-- The filesystem under a directory: a file (whose read yields a parse
tree or a read/parse failure), a readable directory with named entries, or
a directory whose enumeration fails. -/
inductive FsTree where
  | file (content : Except String Ast)
  | dir (entries : FsEntries)
  | errDir

/-- A directory listing: name/subtree pairs in enumeration order. -/
inductive FsEntries where
  | nil
  | cons (name : String) (sub : FsTree) (rest : FsEntries)

end

/-- The directory names skipped during discovery. -/
def excludedDirs : List String := ["node_modules", ".git", "dist"]

/-- The extension whitelist test `/\.(ts|js|tsx|jsx|json)$/.test(name)`. -/
def extMatch (name : String) : Bool :=
  strEndsWith name ".ts" || strEndsWith name ".js" || strEndsWith name ".tsx" ||
    strEndsWith name ".jsx" || strEndsWith name ".json"

mutual

/-- `getAllFiles`: depth-first enumeration of eligible files, paired with
the content a later read of that file yields.  A failing directory read
(`errDir`, or recursing into a non-directory) propagates as an error. -/
def getAllFiles : FsTree → String → Except Unit (List (String × Except String Ast))
  | .errDir, _ => .error ()
  | .file _, _ => .error ()
  | .dir entries, d => getAllFilesEntries entries d

/-- The entry loop of `getAllFiles` over one directory's listing. -/
def getAllFilesEntries : FsEntries → String → Except Unit (List (String × Except String Ast))
  | .nil, _ => .ok []
  | .cons name sub rest, d =>
    let res := pathResolve d name
    let here : Except Unit (List (String × Except String Ast)) :=
      match sub with
      | .file c => if extMatch name then .ok [(res, c)] else .ok []
      | .dir es => if name ∈ excludedDirs then .ok [] else getAllFilesEntries es res
      | .errDir => if name ∈ excludedDirs then .ok [] else .error ()
    match here, getAllFilesEntries rest d with
    | .ok fs, .ok rs => .ok (fs ++ rs)
    | .error e, _ => .error e
    | _, .error e => .error e

end

/-! ### Resolution (`resolvePath`) and per-file analysis (`parseFile`) -/

/-- The probe suffixes, in source order. -/
def extensions : List String := [".ts", ".js", ".tsx", ".jsx", ".json", "/index.ts", "/index.js"]

/-- `absolutePath.replace(/\.js$/, new)`: drop the trailing three
characters and append the new suffix (only applied under an
`endsWith('.js')` guard in the source). -/
def swapJsSuffix (p new : String) : String :=
  ⟨p.data.take (p.data.length - 3) ++ new.data⟩

/-- `resolvePath(dir, relativePath)`: exact match, then suffix probing in
the fixed order, then the `.js → .ts/.tsx/.jsx` sibling swap, else `null`. -/
def resolvePath (g : Graph) (dir relPath : String) : Option String :=
  let absolutePath := pathResolve dir relPath
  if mapHas g absolutePath then some absolutePath
  else
    match extensions.findSome?
        (fun ext => if mapHas g (absolutePath ++ ext) then some (absolutePath ++ ext) else none) with
    | some p => some p
    | none =>
      if strEndsWith absolutePath ".js" then
        let tsPath := swapJsSuffix absolutePath ".ts"
        if mapHas g tsPath then some tsPath
        else
          let tsxPath := swapJsSuffix absolutePath ".tsx"
          if mapHas g tsxPath then some tsxPath
          else
            let jsxPath := swapJsSuffix absolutePath ".jsx"
            if mapHas g jsxPath then some jsxPath else none
      else none

/-- The dispatch in `parseFile`'s import loop: a reference starting with
`.` resolves against the importing file's directory, anything else against
the project root. -/
def resolveRef (g : Graph) (root filePath ref : String) : Option String :=
  if strStartsWith ref "." then resolvePath g (dirname filePath) ref
  else resolvePath g root ref

/-- One iteration of `parseFile`'s import loop: resolve the raw reference
and, when it lands on a known node, record the edge. -/
def importStep (root filePath : String) (acc : Graph) (imp : String) : Graph :=
  match resolveRef acc root filePath imp with
  | some rp => if mapHas acc rp then recordEdge acc filePath rp else acc
  | none => acc

/-- `parseFile`: read and parse one file (a failure is caught and leaves
the graph unchanged), store the collected symbols on the file's node, then
resolve each raw reference in order and record the resulting edges. -/
def parseFile (g : Graph) (root filePath : String) (content : Except String Ast) : Graph :=
  match content with
  | .error _ => g
  | .ok ast =>
    let imports := collectImports ast
    let symbols := collectSymbols ast
    match mapGet g filePath with
    | none => g
    | some _ =>
      let g1 := mapUpdate g filePath (fun n => { n with symbols := symbols })
      imports.foldl (importStep root filePath) g1

/-! ### `build` and the query layer -/

def emptyNode (p : String) : FileNode := ⟨p, [], [], []⟩

/-- The result record of `build`, together with the graph and the stored
root it leaves behind. -/
structure BuildOut where
  graph : Graph
  root : String
  nodeCount : Nat
  totalFiles : Nat
  deriving Repr

/-- `build(rootDir)`: canonicalise the root, discover files (enumeration
failure aborts), initialise one empty node per file, then analyse each
file in discovery order. -/
def build (rootDir : String) (t : FsTree) : Except Unit BuildOut :=
  let root := canon rootDir
  match getAllFiles t root with
  | .error e => .error e
  | .ok filesC =>
    let g0 := filesC.foldl (fun g pc => mapSet g pc.1 (emptyNode pc.1)) ([] : Graph)
    let g1 := filesC.foldl (fun g pc => parseFile g root pc.1 pc.2) g0
    .ok ⟨g1, root, g1.length, filesC.length⟩

/-- The record `getRelationships` returns for a found node. -/
structure RelRecord where
  path : String
  imports : List String
  importedBy : List String
  symbols : List String
  deriving DecidableEq, Repr

def renderNode (root : String) (n : FileNode) : RelRecord :=
  ⟨n.path, n.imports.map (pathRelative root), n.importedBy.map (pathRelative root), n.symbols⟩

/-- `getRelationships(filePath)`: canonicalise against the root, try the
exact key, else the first key (in insertion order) ending with the query,
else `null`; imports/importedBy are rendered root-relative. -/
def getRelationships (g : Graph) (root filePath : String) : Option RelRecord :=
  let absolutePath := pathResolve root filePath
  let node? :=
    match mapGet g absolutePath with
    | some n => some n
    | none => g.find? (fun n => strEndsWith n.path filePath)
  match node? with
  | some n => some (renderNode root n)
  | none => none

structure SummaryEntry where
  file : String
  referencedBy : Nat
  deriving DecidableEq, Repr

structure Summary where
  root : String
  fileCount : Nat
  mostReferencedFiles : List SummaryEntry
  deriving DecidableEq, Repr

/-- The sort comparator `(a, b) => b.importedBy.length - a.importedBy.length`:
`a` may stay before `b` exactly when `b`'s inbound degree is no larger. -/
def byInboundDesc (a b : FileNode) : Bool := b.importedBy.length ≤ a.importedBy.length

/-- `getSummary()`: the root, the node count, and the top five nodes by
inbound degree (stable sort descending, then `slice(0, 5)`), rendered as
root-relative path plus inbound count. -/
def getSummary (g : Graph) (root : String) : Summary :=
  ⟨root, g.length,
    ((g.mergeSort byInboundDesc).take 5).map (fun n => ⟨pathRelative root n.path, n.importedBy.length⟩)⟩

/-! ### Basic facts about the store operations -/

/-- Duplicate-suppressed append at the end of a list (the effect of the
`includes`-guarded `push` in `parseFile`). -/
def insertEnd (l : List String) (x : String) : List String :=
  if x ∈ l then l else l ++ [x]

/-! ### The symmetry invariant -/

/-- Edge symmetry: `B.path ∈ A.imports ↔ A.path ∈ B.importedBy` for all
node pairs. -/
def Sym (g : Graph) : Prop :=
  ∀ a ∈ g, ∀ b ∈ g, (b.path ∈ a.imports ↔ a.path ∈ b.importedBy)

/-- All nodes of the freshly initialised graph are edge-free. -/
def NoEdges (g : Graph) : Prop := ∀ n ∈ g, n.imports = [] ∧ n.importedBy = []

/-! ### Keys of the graph -/

/-- The key set of the store, in insertion order. -/
def keys (g : Graph) : List String := g.map (fun n => n.path)

/-! ### Duplicate suppression of the edge lists -/

/-- Every node's two edge lists are duplicate-free. -/
def EdgesNodup (g : Graph) : Prop := ∀ n ∈ g, n.imports.Nodup ∧ n.importedBy.Nodup

/-! ### Closure: every recorded edge endpoint is a key -/

/-- Every element of every node's edge lists is itself a key of the store. -/
def Closed (g : Graph) : Prop :=
  ∀ n ∈ g, (∀ q ∈ n.imports, q ∈ keys g) ∧ (∀ q ∈ n.importedBy, q ∈ keys g)

/-! ### Resolution facts -/

/-- The resolution precedence exactly as the specification words it:
(1) base candidate from the relative-marker dichotomy, (2) exact match,
(3) fixed-order suffix probing, (4) the `.js`-ending candidate's
authoring-extension sibling swap, (5) unresolved. -/
def resolveRefSpec (g : Graph) (root filePath ref : String) : Option String :=
  let base :=
    if strStartsWith ref "." then pathResolve (dirname filePath) ref
    else pathResolve root ref
  if mapHas g base then
    some base
  else
    match [".ts", ".js", ".tsx", ".jsx", ".json", "/index.ts", "/index.js"].findSome?
        (fun suf => if mapHas g (base ++ suf) then some (base ++ suf) else none) with
    | some p => some p
    | none =>
      if strEndsWith base ".js" then
        [".ts", ".tsx", ".jsx"].findSome?
          (fun suf => if mapHas g (swapJsSuffix base suf) then some (swapJsSuffix base suf) else none)
      else none

/-! ### The initial graph is pristine -/

/-- Every node of the freshly initialised store is an `emptyNode`. -/
def Pristine (g : Graph) : Prop :=
  ∀ n ∈ g, n.imports = [] ∧ n.importedBy = [] ∧ n.symbols = []

/-! ### Concrete scenario fixtures -/

/-- An empty source file: no statements. -/
def emptyAst : Ast := .otherNode []

/-- Modelled from the spec: the external syntax-parsing capability
(`ts.createSourceFile` from the `typescript` package, which is not part of
this repository) treats comments as trivia, so a commented-out import
produces no tree node at all, and the visitor walks only real syntax.  The
file body whose first line is the comment `// import { x } from './old'`
and whose second line is the real declaration `import { y } from './real'`
therefore parses to a source file whose only statement is the import
declaration of `'./real'`. -/
def commentScenarioAst : Ast := .otherNode [.importDecl (some (.strLit "./real")) []]

/-- Root listing for the comment-immunity scenario: the commented file
plus both candidate targets, `old.ts` included and discovered. -/
def commentTree : FsTree :=
  .dir (.cons "index.ts" (.file (.ok commentScenarioAst))
    (.cons "old.ts" (.file (.ok emptyAst))
      (.cons "real.ts" (.file (.ok emptyAst)) .nil)))

/-- Root listing containing a coverage-output directory and a tool-cache
directory, each holding one source file. -/
def coverageTree : FsTree :=
  .dir (.cons "coverage" (.dir (.cons "covered.ts" (.file (.ok emptyAst)) .nil))
    (.cons ".cache" (.dir (.cons "tool.ts" (.file (.ok emptyAst)) .nil)) .nil))

/-! ### Path arithmetic facts (for the empty-query claim) -/

/-- The absolute path with the given segments. -/
def mkAbs (S : List (List Char)) : String := ⟨'/' :: joinSegCh S⟩

/-- A segment as produced by normalisation: nonempty, not a dot segment,
and slash-free. -/
def CleanSeg (s : List Char) : Prop := s ≠ [] ∧ s ≠ ['.'] ∧ s ≠ ['.', '.'] ∧ '/' ∉ s

def CleanList (S : List (List Char)) : Prop := ∀ s ∈ S, CleanSeg s

/-- Names returned by a real `readdir` are nonempty, slash-free, and never
`.` or `..`. -/
def goodNameB (s : String) : Bool :=
  decide (s.data ≠ [] ∧ '/' ∉ s.data ∧ s.data ≠ ['.'] ∧ s.data ≠ ['.', '.'])

mutual

/-- Well-formedness of a modelled filesystem: every entry name is a real
directory-entry name. -/
def wfTree : FsTree → Bool
  | .file _ => true
  | .errDir => true
  | .dir es => wfEntries es

def wfEntries : FsEntries → Bool
  | .nil => true
  | .cons name sub rest => goodNameB name && wfTree sub && wfEntries rest

end

/-! ### Witness fixtures -/

/-- A file importing `./real` twice (a duplicate raw reference) and
exporting one function. -/
def wAstIndex : Ast := .otherNode [.importDecl (some (.strLit "./real")) [],
  .importDecl (some (.strLit "./real")) [], .functionDecl (some "run") true []]

/-- A file exporting one function and importing nothing. -/
def wAstReal : Ast := .otherNode [.functionDecl (some "helper") true []]

/-- A root with one unreadable file and two parseable ones. -/
def wTree : FsTree :=
  .dir (.cons "bad.ts" (.file (.error "EACCES"))
    (.cons "index.ts" (.file (.ok wAstIndex))
      (.cons "real.ts" (.file (.ok wAstReal)) .nil)))

def wFiles : List (String × Except String Ast) :=
  [("/app/bad.ts", .error "EACCES"), ("/app/index.ts", .ok wAstIndex),
    ("/app/real.ts", .ok wAstReal)]

def wNodeBad : FileNode := ⟨"/app/bad.ts", [], [], []⟩

def wNodeIndex : FileNode :=
  ⟨"/app/index.ts", ["/app/real.ts"], [], ["function:run"]⟩

def wNodeReal : FileNode :=
  ⟨"/app/real.ts", [], ["/app/index.ts"], ["function:helper"]⟩

def wOut : BuildOut := ⟨[wNodeBad, wNodeIndex, wNodeReal], "/app", 3, 3⟩

/-! ### Theorems -/





theorem mem_insertEnd {l : List String} {x y : String} :
    y ∈ insertEnd l x ↔ y ∈ l ∨ y = x := by
  unfold insertEnd
  split
  · exact ⟨Or.inl, fun h => h.elim id (fun hy => hy ▸ ‹x ∈ l›)⟩
  · simp

theorem insertEnd_nodup {l : List String} {x : String} (h : l.Nodup) :
    (insertEnd l x).Nodup := by
  unfold insertEnd
  split
  · exact h
  · simpa [List.nodup_append] using ⟨h, ‹x ∉ l›⟩

@[simp] theorem pushImport_path (n : FileNode) (t : String) :
    (pushImport n t).path = n.path := by
  unfold pushImport; split <;> rfl

@[simp] theorem pushImport_importedBy (n : FileNode) (t : String) :
    (pushImport n t).importedBy = n.importedBy := by
  unfold pushImport; split <;> rfl

@[simp] theorem pushImport_symbols (n : FileNode) (t : String) :
    (pushImport n t).symbols = n.symbols := by
  unfold pushImport; split <;> rfl

theorem pushImport_imports (n : FileNode) (t : String) :
    (pushImport n t).imports = insertEnd n.imports t := by
  unfold pushImport insertEnd; split <;> rfl

@[simp] theorem pushImportedBy_path (n : FileNode) (f : String) :
    (pushImportedBy n f).path = n.path := by
  unfold pushImportedBy; split <;> rfl

@[simp] theorem pushImportedBy_imports (n : FileNode) (f : String) :
    (pushImportedBy n f).imports = n.imports := by
  unfold pushImportedBy; split <;> rfl

@[simp] theorem pushImportedBy_symbols (n : FileNode) (f : String) :
    (pushImportedBy n f).symbols = n.symbols := by
  unfold pushImportedBy; split <;> rfl

theorem pushImportedBy_importedBy (n : FileNode) (f : String) :
    (pushImportedBy n f).importedBy = insertEnd n.importedBy f := by
  unfold pushImportedBy insertEnd; split <;> rfl

@[simp] theorem edgeStepIB_path (t fr : String) (n1 : FileNode) :
    (edgeStepIB t fr n1).path = n1.path := by
  unfold edgeStepIB; split <;> simp

@[simp] theorem edgeStepIB_imports (t fr : String) (n1 : FileNode) :
    (edgeStepIB t fr n1).imports = n1.imports := by
  unfold edgeStepIB; split <;> simp

@[simp] theorem edgeStepIB_symbols (t fr : String) (n1 : FileNode) :
    (edgeStepIB t fr n1).symbols = n1.symbols := by
  unfold edgeStepIB; split <;> simp

theorem edgeStepIB_importedBy (t fr : String) (n1 : FileNode) :
    (edgeStepIB t fr n1).importedBy =
      if n1.path = t then insertEnd n1.importedBy fr else n1.importedBy := by
  by_cases h : n1.path = t <;> simp [edgeStepIB, h, pushImportedBy_importedBy]

@[simp] theorem edgeStep_path (fr t : String) (n : FileNode) :
    (edgeStep fr t n).path = n.path := by
  unfold edgeStep
  by_cases hf : n.path = fr <;> simp [hf]

theorem edgeStep_imports (fr t : String) (n : FileNode) :
    (edgeStep fr t n).imports =
      if n.path = fr then insertEnd n.imports t else n.imports := by
  unfold edgeStep
  by_cases hf : n.path = fr <;> simp [hf, pushImport_imports]

theorem edgeStep_importedBy (fr t : String) (n : FileNode) :
    (edgeStep fr t n).importedBy =
      if n.path = t then insertEnd n.importedBy fr else n.importedBy := by
  unfold edgeStep
  by_cases hf : n.path = fr <;> simp [hf, edgeStepIB_importedBy]

@[simp] theorem edgeStep_symbols (fr t : String) (n : FileNode) :
    (edgeStep fr t n).symbols = n.symbols := by
  unfold edgeStep
  by_cases hf : n.path = fr <;> simp [hf]

/-- Fold induction helper: an invariant preserved by each step holds of
the fold. -/
theorem foldl_invariant {α β : Type} (P : α → Prop) (f : α → β → α) (l : List β) (init : α)
    (h0 : P init) (hstep : ∀ a b, b ∈ l → P a → P (f a b)) : P (l.foldl f init) := by
  induction l generalizing init with
  | nil => exact h0
  | cons b bs ih =>
    exact ih (f init b) (hstep init b (by simp) h0) (fun a c hc ha => hstep a c (by simp [hc]) ha)

theorem sym_recordEdge {g : Graph} (fr t : String) (h : Sym g) : Sym (recordEdge g fr t) := by
  intro a ha b hb
  rw [recordEdge] at ha hb
  obtain ⟨a0, ha0, rfl⟩ := List.mem_map.mp ha
  obtain ⟨b0, hb0, rfl⟩ := List.mem_map.mp hb
  rw [edgeStep_imports, edgeStep_importedBy, edgeStep_path, edgeStep_path]
  have hbase := h a0 ha0 b0 hb0
  by_cases haf : a0.path = fr <;> by_cases hbt : b0.path = t
  · rw [if_pos haf, if_pos hbt]
    exact iff_of_true (mem_insertEnd.mpr (Or.inr hbt)) (mem_insertEnd.mpr (Or.inr haf))
  · rw [if_pos haf, if_neg hbt]
    constructor
    · intro h1
      rcases mem_insertEnd.mp h1 with h2 | h2
      · exact hbase.mp h2
      · exact absurd h2 hbt
    · intro h1
      exact mem_insertEnd.mpr (Or.inl (hbase.mpr h1))
  · rw [if_neg haf, if_pos hbt]
    constructor
    · intro h1
      exact mem_insertEnd.mpr (Or.inl (hbase.mp h1))
    · intro h1
      rcases mem_insertEnd.mp h1 with h2 | h2
      · exact hbase.mpr h2
      · exact absurd h2 haf
  · rw [if_neg haf, if_neg hbt]
    exact hbase

/-- Symmetry is untouched by any per-node rewrite that keeps `path`,
`imports` and `importedBy`. -/
theorem sym_map {g : Graph} {u : FileNode → FileNode}
    (hp : ∀ n, (u n).path = n.path) (hi : ∀ n, (u n).imports = n.imports)
    (hib : ∀ n, (u n).importedBy = n.importedBy) (h : Sym g) : Sym (g.map u) := by
  intro a ha b hb
  obtain ⟨a0, ha0, rfl⟩ := List.mem_map.mp ha
  obtain ⟨b0, hb0, rfl⟩ := List.mem_map.mp hb
  rw [hp, hp, hi, hib]
  exact h a0 ha0 b0 hb0

theorem sym_setSymbols {g : Graph} (k : String) (sy : List String) (h : Sym g) :
    Sym (mapUpdate g k (fun n => { n with symbols := sy })) := by
  unfold mapUpdate
  apply sym_map ?_ ?_ ?_ h <;> intro n <;> dsimp only <;> split <;> rfl

theorem sym_importStep (root filePath : String) {acc : Graph} (imp : String) (h : Sym acc) :
    Sym (importStep root filePath acc imp) := by
  unfold importStep
  rcases resolveRef acc root filePath imp with _ | rp
  · exact h
  · dsimp only
    split
    · exact sym_recordEdge _ _ h
    · exact h

theorem sym_parseFile {g : Graph} (root filePath : String) (c : Except String Ast) (h : Sym g) :
    Sym (parseFile g root filePath c) := by
  unfold parseFile
  rcases c with e | ast
  · exact h
  · dsimp only
    rcases mapGet g filePath with _ | n
    · exact h
    · dsimp only
      exact foldl_invariant Sym _ _ _ (sym_setSymbols _ _ h)
        (fun acc imp _ hacc => sym_importStep root filePath imp hacc)

theorem noEdges_mapSet_empty {g : Graph} (k : String) (h : NoEdges g) :
    NoEdges (mapSet g k (emptyNode k)) := by
  intro n hn
  unfold mapSet at hn
  split at hn
  · obtain ⟨n0, hn0, rfl⟩ := List.mem_map.mp hn
    split
    · exact ⟨rfl, rfl⟩
    · exact h n0 hn0
  · rcases List.mem_append.mp hn with hmem | hmem
    · exact h n hmem
    · rcases List.mem_singleton.mp hmem with rfl
      exact ⟨rfl, rfl⟩

theorem noEdges_initial (fl : List (String × Except String Ast)) :
    NoEdges (fl.foldl (fun g pc => mapSet g pc.1 (emptyNode pc.1)) ([] : Graph)) := by
  apply foldl_invariant NoEdges
  · intro n hn; cases hn
  · intro g pc _ hg
    exact noEdges_mapSet_empty _ hg

theorem sym_of_noEdges {g : Graph} (h : NoEdges g) : Sym g := by
  intro a ha b hb
  rw [(h a ha).1, (h b hb).2]
  simp

theorem sym_build {rootDir : String} {t : FsTree} {out : BuildOut}
    (hb : build rootDir t = .ok out) : Sym out.graph := by
  simp only [build] at hb
  rcases hfl : getAllFiles t (canon rootDir) with e | fl <;> rw [hfl] at hb
  · cases hb
  · dsimp only at hb
    injection hb with hb2
    subst hb2
    exact foldl_invariant Sym _ _ _
      (sym_of_noEdges (noEdges_initial fl))
      (fun g pc _ hg => sym_parseFile _ _ _ hg)

theorem keys_map {g : Graph} {u : FileNode → FileNode} (hp : ∀ n, (u n).path = n.path) :
    keys (g.map u) = keys g := by
  unfold keys
  rw [List.map_map]
  exact List.map_congr_left (fun n _ => hp n)

theorem mapHas_iff {g : Graph} {k : String} : mapHas g k = true ↔ k ∈ keys g := by
  unfold mapHas keys
  rw [List.any_eq_true]
  constructor
  · rintro ⟨n, hn, hk⟩
    exact List.mem_map.mpr ⟨n, hn, beq_iff_eq.mp hk⟩
  · intro hk
    obtain ⟨n, hn, rfl⟩ := List.mem_map.mp hk
    exact ⟨n, hn, beq_iff_eq.mpr rfl⟩

theorem mapGet_eq_some {g : Graph} {k : String} {n : FileNode}
    (h : mapGet g k = some n) : n ∈ g ∧ n.path = k := by
  unfold mapGet at h
  have hpa := List.find?_some h
  exact ⟨List.mem_of_find?_eq_some h, beq_iff_eq.mp hpa⟩

theorem mapGet_eq_none {g : Graph} {k : String} : mapGet g k = none ↔ k ∉ keys g := by
  unfold mapGet
  rw [List.find?_eq_none]
  constructor
  · intro h hk
    obtain ⟨n, hn, rfl⟩ := List.mem_map.mp hk
    exact h n hn (beq_iff_eq.mpr rfl)
  · intro h n hn hk
    exact h (List.mem_map.mpr ⟨n, hn, beq_iff_eq.mp hk⟩)

theorem mapGet_some_of_mem_keys {g : Graph} {k : String} (h : k ∈ keys g) :
    ∃ n, mapGet g k = some n := by
  rcases hg : mapGet g k with _ | n
  · exact absurd h (mapGet_eq_none.mp hg)
  · exact ⟨n, rfl⟩

theorem mapGet_map {g : Graph} {u : FileNode → FileNode} (hp : ∀ n, (u n).path = n.path)
    (k : String) : mapGet (g.map u) k = (mapGet g k).map u := by
  unfold mapGet
  rw [List.find?_map]
  have hpred : ((fun n : FileNode => n.path == k) ∘ u) = (fun n : FileNode => n.path == k) := by
    funext n
    simp [Function.comp, hp n]
  rw [hpred]

theorem keys_recordEdge (g : Graph) (fr t : String) : keys (recordEdge g fr t) = keys g :=
  keys_map (edgeStep_path fr t)

theorem keys_mapUpdate {g : Graph} {k : String} {f : FileNode → FileNode}
    (hf : ∀ n, (f n).path = n.path) : keys (mapUpdate g k f) = keys g := by
  unfold mapUpdate
  apply keys_map
  intro n
  dsimp only
  split
  · exact hf n
  · rfl

theorem keys_importStep (root filePath : String) (acc : Graph) (imp : String) :
    keys (importStep root filePath acc imp) = keys acc := by
  unfold importStep
  rcases resolveRef acc root filePath imp with _ | rp
  · rfl
  · dsimp only
    split
    · exact keys_recordEdge acc filePath rp
    · rfl

theorem keys_parseFile (g : Graph) (root filePath : String) (c : Except String Ast) :
    keys (parseFile g root filePath c) = keys g := by
  unfold parseFile
  rcases c with e | ast
  · rfl
  · dsimp only
    rcases mapGet g filePath with _ | n
    · rfl
    · dsimp only
      have base : keys (mapUpdate g filePath (fun n => { n with symbols := collectSymbols ast }))
          = keys g := keys_mapUpdate (fun n => rfl)
      refine foldl_invariant (fun acc => keys acc = keys g) _ _ _ base ?_
      intro acc imp _ hacc
      rw [keys_importStep, hacc]

theorem keys_mapSet_empty (g : Graph) (k0 k : String) :
    k ∈ keys (mapSet g k0 (emptyNode k0)) ↔ k ∈ keys g ∨ k = k0 := by
  unfold mapSet
  split
  · have hk0 : k0 ∈ keys g := mapHas_iff.mp (by assumption)
    rw [keys_map]
    · constructor
      · exact Or.inl
      · rintro (h | rfl)
        · exact h
        · exact hk0
    · intro n
      dsimp only
      split
      · rw [beq_iff_eq] at *
        simp [emptyNode]
        exact (by assumption : n.path = k0).symm
      · rfl
  · unfold keys
    rw [List.map_append]
    simp [emptyNode, eq_comm]

theorem keys_initial (fl : List (String × Except String Ast)) (g : Graph) (k : String) :
    k ∈ keys (fl.foldl (fun g pc => mapSet g pc.1 (emptyNode pc.1)) g) ↔
      k ∈ keys g ∨ k ∈ fl.map Prod.fst := by
  induction fl generalizing g with
  | nil => simp
  | cons pc rest ih =>
    rw [List.foldl_cons, ih, keys_mapSet_empty]
    simp [or_assoc, eq_comm]

theorem edgesNodup_recordEdge {g : Graph} (fr t : String) (h : EdgesNodup g) :
    EdgesNodup (recordEdge g fr t) := by
  intro n hn
  rw [recordEdge] at hn
  obtain ⟨n0, hn0, rfl⟩ := List.mem_map.mp hn
  obtain ⟨h1, h2⟩ := h n0 hn0
  refine ⟨?_, ?_⟩
  · rw [edgeStep_imports]
    split
    · exact insertEnd_nodup h1
    · exact h1
  · rw [edgeStep_importedBy]
    split
    · exact insertEnd_nodup h2
    · exact h2

theorem edgesNodup_map {g : Graph} {u : FileNode → FileNode}
    (hi : ∀ n, (u n).imports = n.imports) (hib : ∀ n, (u n).importedBy = n.importedBy)
    (h : EdgesNodup g) : EdgesNodup (g.map u) := by
  intro n hn
  obtain ⟨n0, hn0, rfl⟩ := List.mem_map.mp hn
  rw [hi, hib]
  exact h n0 hn0

theorem edgesNodup_setSymbols {g : Graph} (k : String) (sy : List String) (h : EdgesNodup g) :
    EdgesNodup (mapUpdate g k (fun n => { n with symbols := sy })) := by
  unfold mapUpdate
  apply edgesNodup_map ?_ ?_ h <;> intro n <;> dsimp only <;> split <;> rfl

theorem edgesNodup_importStep (root filePath : String) {acc : Graph} (imp : String)
    (h : EdgesNodup acc) : EdgesNodup (importStep root filePath acc imp) := by
  unfold importStep
  rcases resolveRef acc root filePath imp with _ | rp
  · exact h
  · dsimp only
    split
    · exact edgesNodup_recordEdge _ _ h
    · exact h

theorem edgesNodup_parseFile {g : Graph} (root filePath : String) (c : Except String Ast)
    (h : EdgesNodup g) : EdgesNodup (parseFile g root filePath c) := by
  unfold parseFile
  rcases c with e | ast
  · exact h
  · dsimp only
    rcases mapGet g filePath with _ | n
    · exact h
    · dsimp only
      exact foldl_invariant EdgesNodup _ _ _ (edgesNodup_setSymbols _ _ h)
        (fun acc imp _ hacc => edgesNodup_importStep root filePath imp hacc)

theorem edgesNodup_of_noEdges {g : Graph} (h : NoEdges g) : EdgesNodup g := by
  intro n hn
  rw [(h n hn).1, (h n hn).2]
  exact ⟨List.nodup_nil, List.nodup_nil⟩

theorem edgesNodup_build {rootDir : String} {t : FsTree} {out : BuildOut}
    (hb : build rootDir t = .ok out) : EdgesNodup out.graph := by
  simp only [build] at hb
  rcases hfl : getAllFiles t (canon rootDir) with e | fl <;> rw [hfl] at hb
  · cases hb
  · dsimp only at hb
    injection hb with hb2
    subst hb2
    exact foldl_invariant EdgesNodup _ _ _
      (edgesNodup_of_noEdges (noEdges_initial fl))
      (fun g pc _ hg => edgesNodup_parseFile _ _ _ hg)

theorem closed_recordEdge {g : Graph} {fr t : String}
    (hfr : fr ∈ keys g) (ht : t ∈ keys g) (h : Closed g) : Closed (recordEdge g fr t) := by
  intro n hn
  rw [recordEdge] at hn
  obtain ⟨n0, hn0, rfl⟩ := List.mem_map.mp hn
  obtain ⟨h1, h2⟩ := h n0 hn0
  rw [keys_recordEdge g fr t]
  refine ⟨?_, ?_⟩
  · rw [edgeStep_imports]
    split
    · intro q hq
      rcases mem_insertEnd.mp hq with hq2 | rfl
      · exact h1 q hq2
      · exact ht
    · exact h1
  · rw [edgeStep_importedBy]
    split
    · intro q hq
      rcases mem_insertEnd.mp hq with hq2 | rfl
      · exact h2 q hq2
      · exact hfr
    · exact h2

theorem closed_map {g : Graph} {u : FileNode → FileNode}
    (hp : ∀ n, (u n).path = n.path) (hi : ∀ n, (u n).imports = n.imports)
    (hib : ∀ n, (u n).importedBy = n.importedBy) (h : Closed g) : Closed (g.map u) := by
  intro n hn
  obtain ⟨n0, hn0, rfl⟩ := List.mem_map.mp hn
  rw [hi, hib, keys_map hp]
  exact h n0 hn0

theorem closed_setSymbols {g : Graph} (k : String) (sy : List String) (h : Closed g) :
    Closed (mapUpdate g k (fun n => { n with symbols := sy })) := by
  unfold mapUpdate
  apply closed_map ?_ ?_ ?_ h <;> intro n <;> dsimp only <;> split <;> rfl

theorem closed_importStep (root filePath : String) {acc : Graph} (imp : String)
    (hfp : filePath ∈ keys acc) (h : Closed acc) :
    Closed (importStep root filePath acc imp) := by
  unfold importStep
  rcases resolveRef acc root filePath imp with _ | rp
  · exact h
  · dsimp only
    split
    · exact closed_recordEdge hfp (mapHas_iff.mp (by assumption)) h
    · exact h

theorem closed_parseFile {g : Graph} (root filePath : String) (c : Except String Ast)
    (h : Closed g) : Closed (parseFile g root filePath c) := by
  unfold parseFile
  rcases c with e | ast
  · exact h
  · dsimp only
    rcases hget : mapGet g filePath with _ | n0
    · exact h
    · dsimp only
      have hfp : filePath ∈ keys g := by
        obtain ⟨hmem, hpath⟩ := mapGet_eq_some hget
        exact hpath ▸ List.mem_map.mpr ⟨n0, hmem, rfl⟩
      have hk0 : keys (mapUpdate g filePath (fun n => { n with symbols := collectSymbols ast }))
          = keys g := keys_mapUpdate (fun n => rfl)
      have hmain := foldl_invariant (fun acc => Closed acc ∧ keys acc = keys g)
        (importStep root filePath) (collectImports ast) _
        ⟨closed_setSymbols _ _ h, hk0⟩
        (fun acc imp _ hacc =>
          ⟨closed_importStep root filePath imp (hacc.2 ▸ hfp) hacc.1,
            (keys_importStep root filePath acc imp).trans hacc.2⟩)
      exact hmain.1

theorem closed_of_noEdges {g : Graph} (h : NoEdges g) : Closed g := by
  intro n hn
  rw [(h n hn).1, (h n hn).2]
  exact ⟨by simp, by simp⟩

theorem closed_build {rootDir : String} {t : FsTree} {out : BuildOut}
    (hb : build rootDir t = .ok out) : Closed out.graph := by
  simp only [build] at hb
  rcases hfl : getAllFiles t (canon rootDir) with e | fl <;> rw [hfl] at hb
  · cases hb
  · dsimp only at hb
    injection hb with hb2
    subst hb2
    exact foldl_invariant Closed _ _ _
      (closed_of_noEdges (noEdges_initial fl))
      (fun g pc _ hg => closed_parseFile _ _ _ hg)

theorem keys_build {rootDir : String} {t : FsTree} {out : BuildOut}
    {fl : List (String × Except String Ast)}
    (hb : build rootDir t = .ok out) (hfl : getAllFiles t (canon rootDir) = .ok fl)
    (k : String) : k ∈ keys out.graph ↔ k ∈ fl.map Prod.fst := by
  simp only [build] at hb
  rw [hfl] at hb
  dsimp only at hb
  injection hb with hb2
  subst hb2
  have hkeys : keys (fl.foldl
      (fun g pc => parseFile g (canon rootDir) pc.1 pc.2)
      (fl.foldl (fun g pc => mapSet g pc.1 (emptyNode pc.1)) ([] : Graph)))
      = keys (fl.foldl (fun g pc => mapSet g pc.1 (emptyNode pc.1)) ([] : Graph)) := by
    apply foldl_invariant
      (fun acc => keys acc = keys (fl.foldl (fun g pc => mapSet g pc.1 (emptyNode pc.1)) ([] : Graph)))
    · rfl
    · intro g pc _ hg
      rw [keys_parseFile, hg]
  rw [hkeys, keys_initial]
  simp [keys]

/-! ### Per-file isolation: what one file's analysis can and cannot touch -/

theorem mapGet_recordEdge (g : Graph) (fr t p : String) :
    mapGet (recordEdge g fr t) p = (mapGet g p).map (edgeStep fr t) :=
  mapGet_map (edgeStep_path fr t) p

theorem mapGet_mapUpdate_ne {g : Graph} {k : String} (f : FileNode → FileNode)
    (hf : ∀ n, (f n).path = n.path) {p : String} (h : p ≠ k) :
    mapGet (mapUpdate g k f) p = mapGet g p := by
  have hu : ∀ n : FileNode, ((if n.path == k then f n else n) : FileNode).path = n.path := by
    intro n
    split
    · exact hf n
    · rfl
  unfold mapUpdate
  rw [mapGet_map hu p]
  rcases hget : mapGet g p with _ | n
  · rfl
  · have hp := (mapGet_eq_some hget).2
    simp [hp, h]

theorem mapGet_mapUpdate_self {g : Graph} (k : String) (f : FileNode → FileNode)
    (hf : ∀ n, (f n).path = n.path) :
    mapGet (mapUpdate g k f) k = (mapGet g k).map f := by
  have hu : ∀ n : FileNode, ((if n.path == k then f n else n) : FileNode).path = n.path := by
    intro n
    split
    · exact hf n
    · rfl
  unfold mapUpdate
  rw [mapGet_map hu k]
  rcases hget : mapGet g k with _ | n
  · rfl
  · have hp := (mapGet_eq_some hget).2
    simp [hp]

theorem mapGet_importStep_pair (root filePath : String) (acc : Graph) (imp : String)
    {q : String} (hne : q ≠ filePath) :
    (mapGet (importStep root filePath acc imp) q).map (fun n => (n.imports, n.symbols)) =
      (mapGet acc q).map (fun n => (n.imports, n.symbols)) := by
  unfold importStep
  rcases resolveRef acc root filePath imp with _ | rp
  · rfl
  · dsimp only
    split
    · rw [mapGet_recordEdge]
      rcases hget : mapGet acc q with _ | n
      · rfl
      · have hp := (mapGet_eq_some hget).2
        simp [edgeStep_imports, hp, hne]
    · rfl

theorem mapGet_importStep_symbols (root filePath : String) (acc : Graph) (imp q : String) :
    (mapGet (importStep root filePath acc imp) q).map (fun n => n.symbols) =
      (mapGet acc q).map (fun n => n.symbols) := by
  unfold importStep
  rcases resolveRef acc root filePath imp with _ | rp
  · rfl
  · dsimp only
    split
    · rw [mapGet_recordEdge]
      rcases hget : mapGet acc q with _ | n
      · rfl
      · simp
    · rfl

theorem mapGet_parseFile_pair_ne {g : Graph} (root filePath : String)
    (c : Except String Ast) {q : String} (hne : q ≠ filePath) :
    (mapGet (parseFile g root filePath c) q).map (fun n => (n.imports, n.symbols)) =
      (mapGet g q).map (fun n => (n.imports, n.symbols)) := by
  unfold parseFile
  rcases c with e | ast
  · rfl
  · dsimp only
    rcases mapGet g filePath with _ | n0
    · rfl
    · dsimp only
      have base : mapGet (mapUpdate g filePath
          (fun n => { n with symbols := collectSymbols ast })) q = mapGet g q :=
        mapGet_mapUpdate_ne (fun n => { n with symbols := collectSymbols ast }) (fun n => rfl) hne
      refine foldl_invariant
        (fun acc => (mapGet acc q).map (fun n => (n.imports, n.symbols)) =
          (mapGet g q).map (fun n => (n.imports, n.symbols))) _ _ _
        (by dsimp only; rw [base]) ?_
      intro acc imp _ hacc
      rw [mapGet_importStep_pair root filePath acc imp hne, hacc]

theorem mapGet_parseFile_symbols_self {g : Graph} (root filePath : String) (ast : Ast)
    {n0 : FileNode} (hget : mapGet g filePath = some n0) :
    (mapGet (parseFile g root filePath (.ok ast)) filePath).map (fun n => n.symbols) =
      some (collectSymbols ast) := by
  unfold parseFile
  dsimp only
  rw [hget]
  dsimp only
  have base : (mapGet (mapUpdate g filePath
      (fun n => { n with symbols := collectSymbols ast })) filePath).map (fun n => n.symbols) =
      some (collectSymbols ast) := by
    rw [mapGet_mapUpdate_self filePath (fun n => { n with symbols := collectSymbols ast })
      (fun n => rfl), hget]
    rfl
  refine foldl_invariant
    (fun acc => (mapGet acc filePath).map (fun n => n.symbols) = some (collectSymbols ast))
    _ _ _ base ?_
  intro acc imp _ hacc
  rw [mapGet_importStep_symbols, hacc]

/-- With duplicate-free discovery keys, two entries with the same path
carry the same content. -/
theorem nodup_fst_eq {α β : Type} {l : List (α × β)} (h : (l.map Prod.fst).Nodup)
    {p : α} {a b : β} (ha : (p, a) ∈ l) (hb : (p, b) ∈ l) : a = b := by
  induction l with
  | nil => cases ha
  | cons x xs ih =>
    rw [List.map_cons, List.nodup_cons] at h
    rcases List.mem_cons.mp ha with rfl | ha2
    · rcases List.mem_cons.mp hb with heq | hb2
      · exact (Prod.mk.injEq _ _ _ _ ▸ heq.symm).2.symm ▸ rfl
      · exact absurd (List.mem_map.mpr ⟨(p, b), hb2, rfl⟩) h.1
    · rcases List.mem_cons.mp hb with rfl | hb2
      · exact absurd (List.mem_map.mpr ⟨(p, a), ha2, rfl⟩) h.1
      · exact ih h.2 ha2 hb2

theorem mapGet_parseFile_symbols_ne {g : Graph} (root filePath : String)
    (c : Except String Ast) {q : String} (hne : q ≠ filePath) :
    (mapGet (parseFile g root filePath c) q).map (fun n => n.symbols) =
      (mapGet g q).map (fun n => n.symbols) := by
  have hp : (mapGet (parseFile g root filePath c) q).map (fun n => (n.imports, n.symbols)) =
      (mapGet g q).map (fun n => (n.imports, n.symbols)) :=
    mapGet_parseFile_pair_ne root filePath c hne
  have h2 := congrArg (Option.map Prod.snd) hp
  rw [Option.map_map, Option.map_map] at h2
  exact h2

/-- Entries that either belong to other files or failed to read leave a
file's imports and symbols untouched across the analysis phase. -/
theorem phase2_pair_away (root q : String) (fl : List (String × Except String Ast)) (g : Graph)
    (hq : ∀ c, (q, c) ∈ fl → ∃ m, c = .error m) :
    (mapGet (fl.foldl (fun g pc => parseFile g root pc.1 pc.2) g) q).map
        (fun n => (n.imports, n.symbols)) =
      (mapGet g q).map (fun n => (n.imports, n.symbols)) := by
  induction fl generalizing g with
  | nil => rfl
  | cons pc rest ih =>
    rcases pc with ⟨r, c⟩
    rw [List.foldl_cons, ih _ (fun c' hc' => hq c' (List.mem_cons_of_mem _ hc'))]
    by_cases hpc : r = q
    · subst hpc
      obtain ⟨m, hm⟩ := hq c (List.mem_cons_self _ _)
      subst hm
      rfl
    · rw [mapGet_parseFile_pair_ne root r c (fun h => hpc h.symm)]

/-- Entries of other files leave a file's symbols untouched. -/
theorem phase2_symbols_away (root q : String) (fl : List (String × Except String Ast))
    (g : Graph) (hq : ∀ c, (q, c) ∈ fl → False) :
    (mapGet (fl.foldl (fun g pc => parseFile g root pc.1 pc.2) g) q).map (fun n => n.symbols) =
      (mapGet g q).map (fun n => n.symbols) := by
  induction fl generalizing g with
  | nil => rfl
  | cons pc rest ih =>
    rcases pc with ⟨r, c⟩
    rw [List.foldl_cons, ih _ (fun c' hc' => hq c' (List.mem_cons_of_mem _ hc'))]
    have hne : q ≠ r := fun h => hq c (h ▸ List.mem_cons_self _ _)
    rw [mapGet_parseFile_symbols_ne root r c hne]

/-- A successfully parsed file ends the analysis phase carrying exactly
its collected symbols (given duplicate-free discovery). -/
theorem phase2_symbols_of_ok (root : String) (fl : List (String × Except String Ast))
    (g : Graph) (q : String) (ast : Ast)
    (hmem : (q, Except.ok ast) ∈ fl) (hnd : (fl.map Prod.fst).Nodup) (hkey : q ∈ keys g) :
    (mapGet (fl.foldl (fun g pc => parseFile g root pc.1 pc.2) g) q).map (fun n => n.symbols) =
      some (collectSymbols ast) := by
  induction fl generalizing g with
  | nil => cases hmem
  | cons pc rest ih =>
    rcases pc with ⟨r, c⟩
    rw [List.map_cons, List.nodup_cons] at hnd
    rw [List.foldl_cons]
    rcases List.mem_cons.mp hmem with heq | hmem2
    · injection heq with h1 h2
      subst h1
      subst h2
      have hnot : ∀ c', (q, c') ∈ rest → False := fun c' hc' =>
        hnd.1 (List.mem_map.mpr ⟨(q, c'), hc', rfl⟩)
      obtain ⟨n0, hn0⟩ := mapGet_some_of_mem_keys hkey
      rw [phase2_symbols_away root q rest _ hnot,
        mapGet_parseFile_symbols_self root q ast hn0]
    · have hne : r ≠ q := by
        intro h
        exact hnd.1 (List.mem_map.mpr ⟨(q, Except.ok ast), hmem2, h.symm ▸ rfl⟩)
      have hkey' : q ∈ keys (parseFile g root r c) := by
        rw [keys_parseFile]
        exact hkey
      exact ih _ hmem2 hnd.2 hkey'

theorem resolvePath_eq_spec_steps (g : Graph) (d r : String) :
    resolvePath g d r =
      (if mapHas g (pathResolve d r) then
        some (pathResolve d r)
      else
        match [".ts", ".js", ".tsx", ".jsx", ".json", "/index.ts", "/index.js"].findSome?
            (fun suf => if mapHas g (pathResolve d r ++ suf) then some (pathResolve d r ++ suf)
              else none) with
        | some p => some p
        | none =>
          if strEndsWith (pathResolve d r) ".js" then
            [".ts", ".tsx", ".jsx"].findSome?
              (fun suf => if mapHas g (swapJsSuffix (pathResolve d r) suf) then
                some (swapJsSuffix (pathResolve d r) suf) else none)
          else none) := by
  unfold resolvePath extensions
  dsimp only
  by_cases h1 : mapHas g (pathResolve d r)
  · rw [if_pos h1, if_pos h1]
  · rw [if_neg h1, if_neg h1]
    rcases hfs : [".ts", ".js", ".tsx", ".jsx", ".json", "/index.ts", "/index.js"].findSome?
        (fun suf => if mapHas g (pathResolve d r ++ suf) then some (pathResolve d r ++ suf)
          else none) with _ | p
    · by_cases hjs : strEndsWith (pathResolve d r) ".js"
      · rw [if_pos hjs, if_pos hjs]
        by_cases h2 : mapHas g (swapJsSuffix (pathResolve d r) ".ts") <;>
          by_cases h3 : mapHas g (swapJsSuffix (pathResolve d r) ".tsx") <;>
          by_cases h4 : mapHas g (swapJsSuffix (pathResolve d r) ".jsx") <;>
          simp [List.findSome?, h2, h3, h4]
      · rw [if_neg hjs, if_neg hjs]
    · rfl

/-- Every successful resolution lands on an existing key: each return of
`resolvePath` is guarded by a `nodes.has` check. -/
theorem resolvePath_mem {g : Graph} {d r p : String} (h : resolvePath g d r = some p) :
    p ∈ keys g := by
  rw [resolvePath_eq_spec_steps] at h
  split at h
  · injection h with h1
    subst h1
    exact mapHas_iff.mp (by assumption)
  · split at h
    · rename_i q hq
      injection h with h1
      subst h1
      obtain ⟨suf, _, hsuf⟩ := List.exists_of_findSome?_eq_some hq
      split at hsuf
      · injection hsuf with h2
        subst h2
        exact mapHas_iff.mp (by assumption)
      · cases hsuf
    · split at h
      · obtain ⟨suf, _, hsuf⟩ := List.exists_of_findSome?_eq_some h
        split at hsuf
        · injection hsuf with h2
          subst h2
          exact mapHas_iff.mp (by assumption)
        · cases hsuf
      · cases h

theorem resolveRef_mem {g : Graph} {root filePath r p : String}
    (h : resolveRef g root filePath r = some p) : p ∈ keys g := by
  unfold resolveRef at h
  split at h <;> exact resolvePath_mem h

/-- C3: raw-reference resolution follows the fixed five-step precedence
described by the specification: relative references resolve against the
file's own directory and bare references against the root; an exact
match wins; otherwise the suffixes `.ts`, `.js`, `.tsx`, `.jsx`, `.json`,
`/index.ts`, `/index.js` are probed in that order; otherwise a candidate
ending in `.js` has that suffix swapped for `.ts`, then `.tsx`, then
`.jsx`; otherwise the reference is unresolved. -/
theorem claim_resolution_precedence (g : Graph) (root filePath ref : String) :
    resolveRef g root filePath ref = resolveRefSpec g root filePath ref := by
  unfold resolveRef resolveRefSpec
  dsimp only
  by_cases hdot : strStartsWith ref "."
  · rw [if_pos hdot, if_pos hdot]
    exact resolvePath_eq_spec_steps g (dirname filePath) ref
  · rw [if_neg hdot, if_neg hdot]
    exact resolvePath_eq_spec_steps g root ref

theorem pristine_mapSet_empty {g : Graph} (k : String) (h : Pristine g) :
    Pristine (mapSet g k (emptyNode k)) := by
  intro n hn
  unfold mapSet at hn
  split at hn
  · obtain ⟨n0, hn0, rfl⟩ := List.mem_map.mp hn
    split
    · exact ⟨rfl, rfl, rfl⟩
    · exact h n0 hn0
  · rcases List.mem_append.mp hn with hmem | hmem
    · exact h n hmem
    · rcases List.mem_singleton.mp hmem with rfl
      exact ⟨rfl, rfl, rfl⟩

theorem pristine_initial (fl : List (String × Except String Ast)) :
    Pristine (fl.foldl (fun g pc => mapSet g pc.1 (emptyNode pc.1)) ([] : Graph)) := by
  apply foldl_invariant Pristine
  · intro n hn; cases hn
  · intro g pc _ hg
    exact pristine_mapSet_empty _ hg

/-! ### Claim theorems: build-level invariants -/

/-- C1: for every completed build and all nodes `A`, `B` of the resulting
graph, `B.path ∈ A.imports ↔ A.path ∈ B.importedBy` (edge symmetry). -/
theorem claim_symmetry {rootDir : String} {t : FsTree} {out : BuildOut}
    (hb : build rootDir t = .ok out) (A B : FileNode)
    (hA : A ∈ out.graph) (hB : B ∈ out.graph) :
    B.path ∈ A.imports ↔ A.path ∈ B.importedBy :=
  sym_build hb A hA B hB

/-- C5: duplicate-suppressed edge recording is idempotent: after every
build, any target occurs at most once in a node's imports and any origin
at most once in a node's importedBy. -/
theorem claim_idempotence {rootDir : String} {t : FsTree} {out : BuildOut}
    (hb : build rootDir t = .ok out) (n : FileNode) (hn : n ∈ out.graph) (p : String) :
    n.imports.count p ≤ 1 ∧ n.importedBy.count p ≤ 1 := by
  obtain ⟨h1, h2⟩ := edgesNodup_build hb n hn
  exact ⟨List.nodup_iff_count_le_one.mp h1 p, List.nodup_iff_count_le_one.mp h2 p⟩

/-- C6: after a build the key set is exactly the discovered file set,
resolution never creates a node (every successful resolution is an
existing key), and every recorded edge endpoint is a key. -/
theorem claim_nodes_are_discovered_files {rootDir : String} {t : FsTree} {out : BuildOut}
    {fl : List (String × Except String Ast)}
    (hb : build rootDir t = .ok out) (hfl : getAllFiles t (canon rootDir) = .ok fl) :
    (∀ k, k ∈ keys out.graph ↔ k ∈ fl.map Prod.fst) ∧
    (∀ (g : Graph) (d r p : String), resolvePath g d r = some p → p ∈ keys g) ∧
    (∀ n ∈ out.graph, (∀ q ∈ n.imports, q ∈ keys out.graph) ∧
      (∀ q ∈ n.importedBy, q ∈ keys out.graph)) :=
  ⟨keys_build hb hfl, fun _ _ _ _ h => resolvePath_mem h, closed_build hb⟩

/-- C4: a read or parse failure of one file is absorbed: the build still
succeeds, the failed file keeps its node with empty imports and symbols,
and every successfully parsed file is still analysed; a
directory-enumeration failure instead fails the whole build. -/
theorem claim_error_handling (rootDir : String) (t : FsTree) :
    (∀ fl, getAllFiles t (canon rootDir) = .ok fl → (fl.map Prod.fst).Nodup →
      ∃ out, build rootDir t = .ok out ∧
        (∀ p m, (p, Except.error m) ∈ fl →
          ∃ n, mapGet out.graph p = some n ∧ n.imports = [] ∧ n.symbols = []) ∧
        (∀ q ast, (q, Except.ok ast) ∈ fl →
          ∃ n, mapGet out.graph q = some n ∧ n.symbols = collectSymbols ast)) ∧
    (∀ e, getAllFiles t (canon rootDir) = .error e → build rootDir t = .error e) := by
  constructor
  · intro fl hfl hnd
    refine ⟨⟨fl.foldl (fun g pc => parseFile g (canon rootDir) pc.1 pc.2)
        (fl.foldl (fun g pc => mapSet g pc.1 (emptyNode pc.1)) ([] : Graph)),
      canon rootDir,
      (fl.foldl (fun g pc => parseFile g (canon rootDir) pc.1 pc.2)
        (fl.foldl (fun g pc => mapSet g pc.1 (emptyNode pc.1)) ([] : Graph))).length,
      fl.length⟩, ?_, ?_, ?_⟩
    · simp only [build]
      rw [hfl]
    · intro p m hpm
      have hpkeys : p ∈ keys (fl.foldl (fun g pc => mapSet g pc.1 (emptyNode pc.1)) ([] : Graph)) :=
        (keys_initial fl [] p).mpr (Or.inr (List.mem_map.mpr ⟨(p, Except.error m), hpm, rfl⟩))
      obtain ⟨n0, hn0⟩ := mapGet_some_of_mem_keys hpkeys
      have hn0g := mapGet_eq_some hn0
      obtain ⟨hi0, _, hs0⟩ := pristine_initial fl n0 hn0g.1
      have hq : ∀ c, (p, c) ∈ fl → ∃ m2, c = Except.error m2 :=
        fun c hc => ⟨m, nodup_fst_eq hnd hc hpm ▸ rfl⟩
      have hfrozen := phase2_pair_away (canon rootDir) p fl
        (fl.foldl (fun g pc => mapSet g pc.1 (emptyNode pc.1)) ([] : Graph)) hq
      rw [hn0] at hfrozen
      rcases hfin : mapGet (fl.foldl (fun g pc => parseFile g (canon rootDir) pc.1 pc.2)
          (fl.foldl (fun g pc => mapSet g pc.1 (emptyNode pc.1)) ([] : Graph))) p with _ | nf
      · rw [hfin] at hfrozen
        cases hfrozen
      · rw [hfin] at hfrozen
        injection hfrozen with hfz
        injection hfz with hfz1 hfz2
        exact ⟨nf, hfin, hfz1.trans hi0, hfz2.trans hs0⟩
    · intro q ast hq
      have hqkeys : q ∈ keys (fl.foldl (fun g pc => mapSet g pc.1 (emptyNode pc.1)) ([] : Graph)) :=
        (keys_initial fl [] q).mpr (Or.inr (List.mem_map.mpr ⟨(q, Except.ok ast), hq, rfl⟩))
      have hsym := phase2_symbols_of_ok (canon rootDir) fl _ q ast hq hnd hqkeys
      rcases hfin : mapGet (fl.foldl (fun g pc => parseFile g (canon rootDir) pc.1 pc.2)
          (fl.foldl (fun g pc => mapSet g pc.1 (emptyNode pc.1)) ([] : Graph))) q with _ | nf
      · rw [hfin] at hsym
        cases hsym
      · rw [hfin] at hsym
        injection hsym with hs
        exact ⟨nf, hfin, hs⟩
  · intro e he
    simp only [build]
    rw [he]

/-! ### Query-layer claim theorems -/

/-- C7: `getRelationships` canonicalises the query against the root; an
exact key wins, otherwise the first key in insertion order ending with the
query is returned, otherwise the result is `none` (not a failure); the
returned record renders imports and importedBy root-relative. -/
theorem claim_getRelationships_spec (g : Graph) (root q : String) :
    (∀ n, mapGet g (pathResolve root q) = some n →
      getRelationships g root q = some (renderNode root n)) ∧
    (mapGet g (pathResolve root q) = none →
      ∀ g1 n g2, g = g1 ++ n :: g2 →
        (∀ m ∈ g1, strEndsWith m.path q = false) → strEndsWith n.path q = true →
        getRelationships g root q = some (renderNode root n)) ∧
    (mapGet g (pathResolve root q) = none →
      (∀ m ∈ g, strEndsWith m.path q = false) → getRelationships g root q = none) ∧
    (∀ r, getRelationships g root q = some r →
      ∃ n ∈ g, r = ⟨n.path, n.imports.map (pathRelative root),
        n.importedBy.map (pathRelative root), n.symbols⟩) := by
  refine ⟨?_, ?_, ?_, ?_⟩
  · intro n hn
    simp only [getRelationships]
    rw [hn]
  · intro hnone g1 n g2 hsplit hfalse htrue
    simp only [getRelationships]
    rw [hnone, hsplit, List.find?_append]
    have h1 : g1.find? (fun m => strEndsWith m.path q) = none :=
      List.find?_eq_none.mpr (fun m hm => by rw [hfalse m hm]; exact Bool.false_ne_true)
    rw [h1, show List.find? (fun m => strEndsWith m.path q) (n :: g2) = some n from
      List.find?_cons_of_pos g2 htrue]
    rfl
  · intro hnone hfalse
    simp only [getRelationships]
    rw [hnone, List.find?_eq_none.mpr (fun m hm => by rw [hfalse m hm]; exact Bool.false_ne_true)]
  · intro r hr
    simp only [getRelationships] at hr
    rcases hget : mapGet g (pathResolve root q) with _ | n
    · rw [hget] at hr
      rcases hfind : g.find? (fun m => strEndsWith m.path q) with _ | n2
      · rw [hfind] at hr
        cases hr
      · rw [hfind] at hr
        injection hr with hr2
        exact ⟨n2, List.mem_of_find?_eq_some hfind, hr2.symm⟩
    · rw [hget] at hr
      injection hr with hr2
      exact ⟨n, (mapGet_eq_some hget).1, hr2.symm⟩

theorem byInboundDesc_trans (a b c : FileNode) :
    byInboundDesc a b → byInboundDesc b c → byInboundDesc a c := by
  simp only [byInboundDesc, decide_eq_true_eq]
  omega

theorem byInboundDesc_total (a b : FileNode) : byInboundDesc a b || byInboundDesc b a := by
  simp only [byInboundDesc, Bool.or_eq_true, decide_eq_true_eq]
  omega

/-- C8: `getSummary` returns the root, the node count, and at most five
entries sorted descending by inbound degree, each a root-relative path
with its inbound count; every node either appears among the entries or has
inbound degree at most every listed entry's. -/
theorem claim_getSummary_spec (g : Graph) (root : String) :
    (getSummary g root).root = root ∧
    (getSummary g root).fileCount = g.length ∧
    (getSummary g root).mostReferencedFiles.length ≤ 5 ∧
    (getSummary g root).mostReferencedFiles.Pairwise
      (fun x y => y.referencedBy ≤ x.referencedBy) ∧
    (∀ e ∈ (getSummary g root).mostReferencedFiles,
      ∃ n ∈ g, e = ⟨pathRelative root n.path, n.importedBy.length⟩) ∧
    (∀ n ∈ g, (⟨pathRelative root n.path, n.importedBy.length⟩ : SummaryEntry) ∈
        (getSummary g root).mostReferencedFiles ∨
      ∀ e ∈ (getSummary g root).mostReferencedFiles, n.importedBy.length ≤ e.referencedBy) := by
  have hsorted : (g.mergeSort byInboundDesc).Pairwise (fun a b => byInboundDesc a b) :=
    List.sorted_mergeSort byInboundDesc_trans byInboundDesc_total g
  refine ⟨rfl, rfl, ?_, ?_, ?_, ?_⟩
  · unfold getSummary
    simp
  · unfold getSummary
    dsimp only
    rw [List.pairwise_map]
    refine List.Pairwise.imp ?_
      (List.Pairwise.sublist (List.take_sublist 5 _) hsorted)
    intro a b hab
    simpa [byInboundDesc, decide_eq_true_eq] using hab
  · intro e he
    unfold getSummary at he
    dsimp only at he
    obtain ⟨n, hn, rfl⟩ := List.mem_map.mp he
    have : n ∈ g.mergeSort byInboundDesc := (List.take_sublist 5 _).mem hn
    exact ⟨n, List.mem_mergeSort.mp this, rfl⟩
  · intro n hn
    have hmem : n ∈ g.mergeSort byInboundDesc := List.mem_mergeSort.mpr hn
    rw [← List.take_append_drop 5 (g.mergeSort byInboundDesc)] at hmem
    rcases List.mem_append.mp hmem with htake | hdrop
    · left
      unfold getSummary
      exact List.mem_map.mpr ⟨n, htake, rfl⟩
    · right
      intro e he
      unfold getSummary at he
      dsimp only at he
      obtain ⟨x, hx, rfl⟩ := List.mem_map.mp he
      have hpw := hsorted
      rw [← List.take_append_drop 5 (g.mergeSort byInboundDesc)] at hpw
      have hrel := (List.pairwise_append.mp hpw).2.2 x hx n hdrop
      simpa [byInboundDesc, decide_eq_true_eq] using hrel

/-- C2: a module reference appearing only inside a comment never produces
an edge: the file with the commented `'./old'` reference and the real
`'./real'` import resolves exactly one edge, to `real.ts`; `old.ts`, though
discovered, gains no edge. -/
theorem claim_comment_immunity :
    build "/app" commentTree = .ok ⟨[
      ⟨"/app/index.ts", ["/app/real.ts"], [], []⟩,
      ⟨"/app/old.ts", [], [], []⟩,
      ⟨"/app/real.ts", [], ["/app/index.ts"], []⟩], "/app", 3, 3⟩ := rfl

/-- C9 counterexample: discovery does not skip coverage-output or
tool-cache directories — files beneath `coverage` and `.cache` become
graph nodes, contradicting the claim that no file under such a directory
becomes a node. -/
theorem claim_discovery_filters_counterexample :
    build "/app" coverageTree = .ok ⟨[
      ⟨"/app/coverage/covered.ts", [], [], []⟩,
      ⟨"/app/.cache/tool.ts", [], [], []⟩], "/app", 2, 2⟩ ∧
    "/app/coverage/covered.ts" ∈ keys [(⟨"/app/coverage/covered.ts", [], [], []⟩ : FileNode),
      ⟨"/app/.cache/tool.ts", [], [], []⟩] :=
  ⟨rfl, by simp [keys]⟩

theorem getAllFilesEntries_cons_file (name : String) (c : Except String Ast)
    (rest : FsEntries) (d : String) :
    getAllFilesEntries (.cons name (.file c) rest) d =
      (match (if extMatch name then Except.ok [(pathResolve d name, c)]
          else (Except.ok [] : Except Unit (List (String × Except String Ast)))),
        getAllFilesEntries rest d with
      | Except.ok fs, Except.ok rs => Except.ok (fs ++ rs)
      | Except.error e, _ => Except.error e
      | _, Except.error e => Except.error e) := rfl

theorem getAllFilesEntries_cons_dir (name : String) (es : FsEntries)
    (rest : FsEntries) (d : String) :
    getAllFilesEntries (.cons name (.dir es) rest) d =
      (match (if name ∈ excludedDirs then (Except.ok [] : Except Unit (List (String × Except String Ast)))
          else getAllFilesEntries es (pathResolve d name)),
        getAllFilesEntries rest d with
      | Except.ok fs, Except.ok rs => Except.ok (fs ++ rs)
      | Except.error e, _ => Except.error e
      | _, Except.error e => Except.error e) := rfl

/-- C9 (amended): discovery skips exactly the directories named
`node_modules`, `.git` and `dist`; every other directory — coverage-output
and tool-cache directories included — is recursed into; a file entry is
kept exactly when its name ends in `.ts`, `.js`, `.tsx`, `.jsx` or
`.json`. -/
theorem claim_discovery_filters_amended :
    (∀ name, name ∈ excludedDirs ↔ (name = "node_modules" ∨ name = ".git" ∨ name = "dist")) ∧
    (∀ name es rest d, name ∈ excludedDirs →
      getAllFilesEntries (.cons name (.dir es) rest) d = getAllFilesEntries rest d) ∧
    (∀ name es rest d, name ∉ excludedDirs →
      getAllFilesEntries (.cons name (.dir es) rest) d =
        (match getAllFilesEntries es (pathResolve d name), getAllFilesEntries rest d with
         | .ok fs, .ok rs => .ok (fs ++ rs)
         | .error e, _ => .error e
         | _, .error e => .error e)) ∧
    (∀ name c rest d, extMatch name = false →
      getAllFilesEntries (.cons name (.file c) rest) d = getAllFilesEntries rest d) ∧
    (∀ name c rest d, extMatch name = true →
      getAllFilesEntries (.cons name (.file c) rest) d =
        (match getAllFilesEntries rest d with
         | .ok rs => .ok ((pathResolve d name, c) :: rs)
         | .error e => .error e)) ∧
    (∀ name, extMatch name = true ↔
      (strEndsWith name ".ts" ∨ strEndsWith name ".js" ∨ strEndsWith name ".tsx" ∨
        strEndsWith name ".jsx" ∨ strEndsWith name ".json")) := by
  refine ⟨?_, ?_, ?_, ?_, ?_, ?_⟩
  · intro name
    simp [excludedDirs]
  · intro name es rest d hmem
    rw [getAllFilesEntries_cons_dir, if_pos hmem]
    rcases hrest : getAllFilesEntries rest d with e | rs <;> rfl
  · intro name es rest d hmem
    rw [getAllFilesEntries_cons_dir, if_neg hmem]
  · intro name c rest d hext
    rw [getAllFilesEntries_cons_file, hext]
    rcases hrest : getAllFilesEntries rest d with e | rs <;> rfl
  · intro name c rest d hext
    rw [getAllFilesEntries_cons_file, hext]
    rcases hrest : getAllFilesEntries rest d with e | rs <;> rfl
  · intro name
    simp only [extMatch, Bool.or_eq_true]
    tauto

theorem splitSegCh_nil : splitSegCh [] = [[]] := rfl

theorem splitSegCh_cons_sep (cs : List Char) :
    splitSegCh ('/' :: cs) = [] :: splitSegCh cs := rfl

theorem splitSegCh_cons (c : Char) (cs : List Char) (hc : c ≠ '/') :
    splitSegCh (c :: cs) =
      (match splitSegCh cs with
       | s :: ss => (c :: s) :: ss
       | [] => [[c]]) := by
  rw [show splitSegCh (c :: cs) =
      (if c = '/' then [] :: splitSegCh cs
       else match splitSegCh cs with
       | s :: ss => (c :: s) :: ss
       | [] => [[c]]) from rfl,
    if_neg hc]

theorem splitSegCh_ne_nil (cs : List Char) : splitSegCh cs ≠ [] := by
  induction cs with
  | nil => simp [splitSegCh]
  | cons c cs ih =>
    by_cases hc : c = '/'
    · subst hc
      rw [splitSegCh_cons_sep]
      simp
    · rw [splitSegCh_cons c cs hc]
      rcases hsp : splitSegCh cs with _ | ⟨s0, ss0⟩
      · simp
      · simp

theorem splitSegCh_append_sep (xs ys : List Char) :
    splitSegCh (xs ++ '/' :: ys) = splitSegCh xs ++ splitSegCh ys := by
  induction xs with
  | nil => rw [List.nil_append, splitSegCh_cons_sep, splitSegCh_nil, List.singleton_append]
  | cons c cs ih =>
    by_cases hc : c = '/'
    · subst hc
      rw [List.cons_append, splitSegCh_cons_sep, splitSegCh_cons_sep, ih, List.cons_append]
    · rcases hsp : splitSegCh cs with _ | ⟨s0, ss0⟩
      · exact absurd hsp (splitSegCh_ne_nil cs)
      · rw [List.cons_append, splitSegCh_cons c _ hc, splitSegCh_cons c cs hc, ih, hsp]
        rfl

theorem splitSegCh_no_sep (cs : List Char) : ∀ s ∈ splitSegCh cs, '/' ∉ s := by
  induction cs with
  | nil =>
    intro s hs
    rw [splitSegCh_nil] at hs
    rcases List.mem_singleton.mp hs with rfl
    simp
  | cons c cs ih =>
    intro s hs
    by_cases hc : c = '/'
    · subst hc
      rw [splitSegCh_cons_sep] at hs
      rcases List.mem_cons.mp hs with rfl | hs2
      · simp
      · exact ih s hs2
    · rcases hsp : splitSegCh cs with _ | ⟨s0, ss0⟩
      · exact absurd hsp (splitSegCh_ne_nil cs)
      · rw [splitSegCh_cons c cs hc, hsp] at hs
        dsimp only at hs
        rcases List.mem_cons.mp hs with rfl | hs2
        · intro hmem
          rcases List.mem_cons.mp hmem with heq | hmem2
          · exact hc heq.symm
          · exact ih s0 (hsp ▸ List.mem_cons_self s0 ss0) hmem2
        · exact ih s (hsp ▸ List.mem_cons_of_mem s0 hs2)

theorem splitSegCh_of_no_sep {s : List Char} (h : '/' ∉ s) : splitSegCh s = [s] := by
  induction s with
  | nil => rfl
  | cons c cs ih =>
    have hc : c ≠ '/' := fun hcc => h (by rw [hcc]; exact List.mem_cons_self _ _)
    rw [splitSegCh_cons c cs hc, ih (fun hm => h (List.mem_cons_of_mem _ hm))]

theorem normSegsAux_cons (acc : List (List Char)) (s : List Char) (rest : List (List Char)) :
    normSegsAux acc (s :: rest) =
      if s = [] ∨ s = ['.'] then normSegsAux acc rest
      else if s = ['.', '.'] then normSegsAux acc.dropLast rest
      else normSegsAux (acc ++ [s]) rest := rfl

theorem normSegsAux_append (l1 l2 : List (List Char)) :
    ∀ acc, normSegsAux acc (l1 ++ l2) = normSegsAux (normSegsAux acc l1) l2 := by
  induction l1 with
  | nil => intro acc; rfl
  | cons s rest ih =>
    intro acc
    by_cases h1 : s = [] ∨ s = ['.']
    · rw [List.cons_append, normSegsAux_cons, if_pos h1, normSegsAux_cons, if_pos h1, ih]
    · by_cases h2 : s = ['.', '.']
      · rw [List.cons_append, normSegsAux_cons, if_neg h1, if_pos h2,
          normSegsAux_cons, if_neg h1, if_pos h2, ih]
      · rw [List.cons_append, normSegsAux_cons, if_neg h1, if_neg h2,
          normSegsAux_cons, if_neg h1, if_neg h2, ih]

theorem cleanList_normSegsAux {l : List (List Char)} (hl : ∀ s ∈ l, '/' ∉ s) :
    ∀ {acc}, CleanList acc → CleanList (normSegsAux acc l) := by
  induction l with
  | nil => intro acc hacc; exact hacc
  | cons s rest ih =>
    intro acc hacc
    have hrest : ∀ x ∈ rest, '/' ∉ x := fun x hx => hl x (List.mem_cons_of_mem _ hx)
    by_cases h1 : s = [] ∨ s = ['.']
    · rw [normSegsAux_cons, if_pos h1]
      exact ih hrest hacc
    · by_cases h2 : s = ['.', '.']
      · rw [normSegsAux_cons, if_neg h1, if_pos h2]
        refine ih hrest ?_
        intro x hx
        exact hacc x (List.Sublist.mem hx (List.dropLast_sublist acc))
      · rw [normSegsAux_cons, if_neg h1, if_neg h2]
        refine ih hrest ?_
        intro x hx
        rcases List.mem_append.mp hx with hx1 | hx2
        · exact hacc x hx1
        · rcases List.mem_singleton.mp hx2 with rfl
          push_neg at h1
          exact ⟨h1.1, h1.2, h2, hl x (List.mem_cons_self _ _)⟩

theorem cleanList_nil : CleanList [] := fun s hs => absurd hs (List.not_mem_nil s)

theorem cleanList_normSegs {l : List (List Char)} (hl : ∀ s ∈ l, '/' ∉ s) :
    CleanList (normSegs l) :=
  cleanList_normSegsAux hl cleanList_nil

theorem normSegsAux_clean (l : List (List Char)) (hl : CleanList l) :
    ∀ acc, normSegsAux acc l = acc ++ l := by
  induction l with
  | nil => intro acc; simp [normSegsAux]
  | cons s rest ih =>
    intro acc
    obtain ⟨h1, h2, h3, _⟩ := hl s (List.mem_cons_self _ _)
    rw [normSegsAux_cons, if_neg (by tauto), if_neg h3,
      ih (fun x hx => hl x (List.mem_cons_of_mem _ hx))]
    simp

theorem splitSegCh_joinSegCh : ∀ {S : List (List Char)}, S ≠ [] →
    (∀ s ∈ S, '/' ∉ s) → splitSegCh (joinSegCh S) = S := by
  intro S
  induction S with
  | nil => intro h; exact absurd rfl h
  | cons s rest ih =>
    intro _ hfree
    rcases rest with _ | ⟨s2, rest2⟩
    · exact splitSegCh_of_no_sep (hfree s (List.mem_cons_self _ _))
    · rw [show joinSegCh (s :: s2 :: rest2) = s ++ '/' :: joinSegCh (s2 :: rest2) from rfl,
        splitSegCh_append_sep, splitSegCh_of_no_sep (hfree s (List.mem_cons_self _ _)),
        ih (by simp) (fun x hx => hfree x (List.mem_cons_of_mem _ hx))]
      rfl

theorem canon_mkAbs : ∀ {S : List (List Char)}, CleanList S → canon (mkAbs S) = mkAbs S := by
  intro S h
  rcases S with _ | ⟨s, rest⟩
  · rfl
  · show canon ⟨'/' :: joinSegCh (s :: rest)⟩ = mkAbs (s :: rest)
    unfold canon
    rw [show (String.mk ('/' :: joinSegCh (s :: rest))).data = '/' :: joinSegCh (s :: rest) from rfl,
      splitSegCh_cons_sep,
      splitSegCh_joinSegCh (by simp) (fun x hx => (h x hx).2.2.2)]
    unfold normSegs
    rw [normSegsAux_cons]
    rw [if_pos (Or.inl rfl), normSegsAux_clean (s :: rest) h []]
    rfl

/-- Extensionality for the string model. -/
theorem strExt {a b : String} (h : a.data = b.data) : a = b := by
  cases a
  cases b
  cases h
  rfl


theorem joinSegCh_length_append (S : List (List Char)) (nm : List Char) (h : nm ≠ []) :
    (joinSegCh S).length < (joinSegCh (S ++ [nm])).length := by
  induction S with
  | nil =>
    rcases nm with _ | ⟨c, cs⟩
    · exact absurd rfl h
    · simp [joinSegCh]
  | cons s rest ih =>
    rcases rest with _ | ⟨s2, r2⟩
    · rcases nm with _ | ⟨c, cs⟩
      · exact absurd rfl h
      · have e1 : joinSegCh [s] = s := rfl
        have e2 : joinSegCh ([s] ++ [c :: cs]) = s ++ '/' :: (c :: cs) := rfl
        rw [e1, e2]
        simp
    · have e1 : joinSegCh (s :: s2 :: r2) = s ++ '/' :: joinSegCh (s2 :: r2) := rfl
      have e2 : joinSegCh ((s :: s2 :: r2) ++ [nm]) =
          s ++ '/' :: joinSegCh ((s2 :: r2) ++ [nm]) := rfl
      rw [e1, e2]
      simp only [List.length_append, List.length_cons]
      omega

theorem mkAbs_length_lt (S : List (List Char)) (nm : List Char) (h : nm ≠ []) :
    (mkAbs S).data.length < (mkAbs (S ++ [nm])).data.length := by
  show ('/' :: joinSegCh S).length < ('/' :: joinSegCh (S ++ [nm])).length
  simp only [List.length_cons]
  exact Nat.succ_lt_succ (joinSegCh_length_append S nm h)

theorem goodName_props {name : String} (hn : goodNameB name = true) :
    name.data ≠ [] ∧ '/' ∉ name.data ∧ name.data ≠ ['.'] ∧ name.data ≠ ['.', '.'] :=
  of_decide_eq_true hn

theorem strStartsWith_sep_false {name : String} (h1 : name.data ≠ []) (h2 : '/' ∉ name.data) :
    strStartsWith name "/" = false := by
  unfold strStartsWith
  rcases hd : name.data with _ | ⟨c, cs⟩
  · exact absurd hd h1
  · have hc : ('/' == c) = false := by
      apply beq_eq_false_iff_ne.mpr
      intro hcc
      apply h2
      rw [hd, ← hcc]
      exact List.mem_cons_self _ _
    show ('/' == c && List.isPrefixOf [] cs) = false
    rw [hc]
    rfl

theorem pathResolve_mkAbs_name {S : List (List Char)} (hS : CleanList S) {name : String}
    (hn : goodNameB name = true) :
    pathResolve (mkAbs S) name = mkAbs (S ++ [name.data]) := by
  obtain ⟨h1, h2, h3, h4⟩ := goodName_props hn
  unfold pathResolve
  rw [if_neg (by rw [strStartsWith_sep_false h1 h2]; exact Bool.false_ne_true)]
  have hdata : (mkAbs S ++ "/" ++ name).data = '/' :: (joinSegCh S ++ '/' :: name.data) := by
    rw [String.data_append, String.data_append]
    rw [show (mkAbs S).data = '/' :: joinSegCh S from rfl,
      show ("/" : String).data = ['/'] from rfl]
    simp
  have hcanon : canon (mkAbs S ++ "/" ++ name) =
      ⟨'/' :: joinSegCh (normSegs (splitSegCh ('/' :: (joinSegCh S ++ '/' :: name.data))))⟩ := by
    unfold canon
    rw [hdata]
  rw [hcanon, splitSegCh_cons_sep, splitSegCh_append_sep, splitSegCh_of_no_sep h2]
  have hnmclean : CleanSeg name.data := ⟨h1, h3, h4, h2⟩
  rcases hS2 : S with _ | ⟨s, rest⟩
  · rw [show joinSegCh ([] : List (List Char)) = [] from rfl, splitSegCh_nil]
    unfold normSegs
    rw [show ([] :: ([[]] ++ [name.data]) : List (List Char)) = [] :: [] :: [name.data] from rfl]
    rw [normSegsAux_cons, if_pos (Or.inl rfl), normSegsAux_cons, if_pos (Or.inl rfl)]
    rw [normSegsAux_cons, if_neg (by tauto), if_neg h4]
    rfl
  · rw [splitSegCh_joinSegCh (by simp) (fun x hx => (hS x (hS2 ▸ hx)).2.2.2)]
    unfold normSegs
    rw [normSegsAux_cons, if_pos (Or.inl rfl)]
    rw [show ((s :: rest) ++ [name.data] : List (List Char)) = s :: rest ++ [name.data] from rfl]
    rw [normSegsAux_clean (s :: rest ++ [name.data]) ?_ []]
    · rfl
    · intro x hx
      rcases List.mem_cons.mp hx with rfl | hx2
      · exact hS x (hS2 ▸ List.mem_cons_self _ _)
      · rcases List.mem_append.mp hx2 with hx3 | hx4
        · exact hS x (hS2 ▸ List.mem_cons_of_mem _ hx3)
        · rcases List.mem_singleton.mp hx4 with rfl
          exact hnmclean

theorem canon_data_append_sep (l : List Char) : canon ⟨l ++ ['/']⟩ = canon ⟨l⟩ := by
  unfold canon
  rw [show (String.mk (l ++ ['/'])).data = l ++ ['/'] from rfl,
    show (String.mk l).data = l from rfl,
    show (l ++ ['/'] : List Char) = l ++ '/' :: [] from rfl,
    splitSegCh_append_sep, splitSegCh_nil]
  unfold normSegs
  rw [normSegsAux_append]
  rfl

theorem canon_canon (p : String) : canon (canon p) = canon p := by
  have hcl : CleanList (cleanSegs p) := cleanList_normSegs (splitSegCh_no_sep p.data)
  rw [show canon p = mkAbs (cleanSegs p) from rfl]
  exact canon_mkAbs hcl

theorem pathResolve_root_empty (p : String) : pathResolve (canon p) "" = canon p := by
  unfold pathResolve
  rw [if_neg (by rw [show strStartsWith "" "/" = false from rfl]; exact Bool.false_ne_true)]
  have hd : (canon p ++ "/" ++ "" : String) = ⟨(canon p).data ++ ['/']⟩ := by
    apply strExt
    rw [String.data_append, String.data_append]
    rw [show ("/" : String).data = ['/'] from rfl, show ("" : String).data = [] from rfl]
    simp
  rw [hd, canon_data_append_sep]
  exact canon_canon p

theorem strEndsWith_empty (s : String) : strEndsWith s "" = true := by
  show List.isSuffixOf [] s.data = true
  exact List.isSuffixOf_nil_left

theorem getAllFilesEntries_cons_errDir (name : String) (rest : FsEntries) (d : String) :
    getAllFilesEntries (.cons name .errDir rest) d =
      (match (if name ∈ excludedDirs then
            (Except.ok [] : Except Unit (List (String × Except String Ast)))
          else Except.error ()),
        getAllFilesEntries rest d with
      | Except.ok fs, Except.ok rs => Except.ok (fs ++ rs)
      | Except.error e, _ => Except.error e
      | _, Except.error e => Except.error e) := rfl

mutual

/-- Every file discovered under a directory has a strictly longer path
than the directory itself (tree view). -/
theorem getAllFiles_paths_longer : ∀ (t : FsTree) (S : List (List Char))
    (fl : List (String × Except String Ast)), CleanList S → wfTree t = true →
    getAllFiles t (mkAbs S) = .ok fl →
    ∀ pc ∈ fl, (mkAbs S).data.length < pc.1.data.length
  | .file _, _, _, _, _, h => by cases h
  | .errDir, _, _, _, _, h => by cases h
  | .dir es, S, fl, hS, hwf, h =>
    getAllFilesEntries_paths_longer es S fl hS hwf h

/-- Every file discovered under a directory has a strictly longer path
than the directory itself (entry-list view). -/
theorem getAllFilesEntries_paths_longer : ∀ (es : FsEntries) (S : List (List Char))
    (fl : List (String × Except String Ast)), CleanList S → wfEntries es = true →
    getAllFilesEntries es (mkAbs S) = .ok fl →
    ∀ pc ∈ fl, (mkAbs S).data.length < pc.1.data.length
  | .nil, S, fl, _, _, h => by
    injection h with h2
    subst h2
    intro pc hpc
    cases hpc
  | .cons name sub rest, S, fl, hS, hwf, h => by
    rw [show wfEntries (.cons name sub rest) =
        (goodNameB name && wfTree sub && wfEntries rest) from rfl,
      Bool.and_eq_true, Bool.and_eq_true] at hwf
    obtain ⟨⟨hname, hsub⟩, hrest⟩ := hwf
    obtain ⟨hn1, hn2, hn3, hn4⟩ := goodName_props hname
    have hSnm : CleanList (S ++ [name.data]) := by
      intro x hx
      rcases List.mem_append.mp hx with hx1 | hx2
      · exact hS x hx1
      · rcases List.mem_singleton.mp hx2 with rfl
        exact ⟨hn1, hn3, hn4, hn2⟩
    have hres : pathResolve (mkAbs S) name = mkAbs (S ++ [name.data]) :=
      pathResolve_mkAbs_name hS hname
    rcases sub with c | es2 | _
    · rw [getAllFilesEntries_cons_file] at h
      rcases hrestres : getAllFilesEntries rest (mkAbs S) with e | rs <;> rw [hrestres] at h
      · by_cases hx : extMatch name = true
        · rw [if_pos hx] at h
          exact Except.noConfusion h
        · rw [if_neg hx] at h
          exact Except.noConfusion h
      · by_cases hx : extMatch name = true
        · rw [if_pos hx] at h
          injection h with h2
          subst h2
          intro pc hpc
          rw [List.singleton_append] at hpc
          rcases List.mem_cons.mp hpc with rfl | hpc2
          · rw [hres]
            exact mkAbs_length_lt S name.data hn1
          · exact getAllFilesEntries_paths_longer rest S rs hS hrest hrestres pc hpc2
        · rw [if_neg hx] at h
          injection h with h2
          subst h2
          intro pc hpc
          rw [List.nil_append] at hpc
          exact getAllFilesEntries_paths_longer rest S rs hS hrest hrestres pc hpc
    · rw [getAllFilesEntries_cons_dir] at h
      by_cases hex : name ∈ excludedDirs
      · rw [if_pos hex] at h
        rcases hrestres : getAllFilesEntries rest (mkAbs S) with e | rs <;> rw [hrestres] at h
        · exact Except.noConfusion h
        · injection h with h2
          subst h2
          intro pc hpc
          rw [List.nil_append] at hpc
          exact getAllFilesEntries_paths_longer rest S rs hS hrest hrestres pc hpc
      · rw [if_neg hex, hres] at h
        rcases hsubres : getAllFilesEntries es2 (mkAbs (S ++ [name.data])) with e | fs <;>
          rw [hsubres] at h
        · rcases hrestres : getAllFilesEntries rest (mkAbs S) with e2 | rs2 <;>
            rw [hrestres] at h <;> exact Except.noConfusion h
        · rcases hrestres : getAllFilesEntries rest (mkAbs S) with e | rs <;> rw [hrestres] at h
          · exact Except.noConfusion h
          · injection h with h2
            subst h2
            intro pc hpc
            rcases List.mem_append.mp hpc with hpc1 | hpc2
            · have hlt := getAllFilesEntries_paths_longer es2 (S ++ [name.data]) fs hSnm
                (show wfEntries es2 = true from hsub) hsubres pc hpc1
              have hlt2 := mkAbs_length_lt S name.data hn1
              omega
            · exact getAllFilesEntries_paths_longer rest S rs hS hrest hrestres pc hpc2
    · rw [getAllFilesEntries_cons_errDir] at h
      by_cases hex : name ∈ excludedDirs
      · rw [if_pos hex] at h
        rcases hrestres : getAllFilesEntries rest (mkAbs S) with e | rs <;> rw [hrestres] at h
        · exact Except.noConfusion h
        · injection h with h2
          subst h2
          intro pc hpc
          rw [List.nil_append] at hpc
          exact getAllFilesEntries_paths_longer rest S rs hS hrest hrestres pc hpc
      · rw [if_neg hex] at h
        rcases hrestres : getAllFilesEntries rest (mkAbs S) with e2 | rs2 <;>
          rw [hrestres] at h <;> exact Except.noConfusion h

end


/-- The canonical root itself is never a graph key: every discovered file
path is strictly longer. -/
theorem build_root_not_key {rootDir : String} {t : FsTree} {out : BuildOut}
    (hb : build rootDir t = .ok out) (hwf : wfTree t = true) :
    mapGet out.graph (canon rootDir) = none := by
  rcases hfl : getAllFiles t (canon rootDir) with e | fl
  · rw [show build rootDir t = Except.error e from by simp only [build]; rw [hfl]] at hb
    cases hb
  · apply mapGet_eq_none.mpr
    intro hk
    have hk2 := (keys_build hb hfl (canon rootDir)).mp hk
    obtain ⟨pc, hpc, hpath⟩ := List.mem_map.mp hk2
    have hcl : CleanList (cleanSegs rootDir) := cleanList_normSegs (splitSegCh_no_sep rootDir.data)
    have hfl2 : getAllFiles t (mkAbs (cleanSegs rootDir)) = .ok fl := hfl
    have hlt := getAllFiles_paths_longer t (cleanSegs rootDir) fl hcl hwf hfl2 pc hpc
    rw [show (canon rootDir : String) = mkAbs (cleanSegs rootDir) from rfl] at hpath
    rw [hpath] at hlt
    omega

/-- C10: for every build over a well-formed tree whose graph is nonempty,
the empty query path hits no exact key but satisfies the `endsWith`
fallback at every key, so `getRelationships` returns the first node in
discovery (insertion) order rather than a not-found result. -/
theorem claim_empty_query {rootDir : String} {t : FsTree} {out : BuildOut}
    (hb : build rootDir t = .ok out) (hwf : wfTree t = true) (hne : out.graph ≠ []) :
    ∃ n, out.graph.head? = some n ∧
      getRelationships out.graph out.root "" = some (renderNode out.root n) := by
  have hroot : out.root = canon rootDir := by
    simp only [build] at hb
    rcases hfl : getAllFiles t (canon rootDir) with e | fl <;> rw [hfl] at hb
    · cases hb
    · dsimp only at hb
      injection hb with hb2
      subst hb2
      rfl
  have hnone : mapGet out.graph (canon rootDir) = none := build_root_not_key hb hwf
  rcases hg : out.graph with _ | ⟨n0, grest⟩
  · exact absurd hg hne
  · refine ⟨n0, rfl, ?_⟩
    simp only [getRelationships]
    rw [hroot, pathResolve_root_empty rootDir]
    rw [hg] at hnone
    rw [hnone]
    rw [show List.find? (fun n => strEndsWith n.path "") (n0 :: grest) = some n0 from
      List.find?_cons_of_pos grest (strEndsWith_empty n0.path)]

/-! ### Witnesses -/

theorem claim_symmetry_witness :
    build "/app" wTree = .ok wOut ∧
      (wNodeReal.path ∈ wNodeIndex.imports ↔ wNodeIndex.path ∈ wNodeReal.importedBy) :=
  ⟨rfl, claim_symmetry (show build "/app" wTree = .ok wOut from rfl) wNodeIndex wNodeReal
    (by decide) (by decide)⟩

theorem claim_idempotence_witness :
    build "/app" wTree = .ok wOut ∧
      wNodeIndex.imports.count "/app/real.ts" ≤ 1 ∧
      wNodeIndex.importedBy.count "/app/real.ts" ≤ 1 :=
  ⟨rfl, claim_idempotence (show build "/app" wTree = .ok wOut from rfl) wNodeIndex
    (by decide) "/app/real.ts"⟩

theorem claim_nodes_are_discovered_files_witness :
    (∀ k, k ∈ keys wOut.graph ↔ k ∈ wFiles.map Prod.fst) ∧
    (∀ (g : Graph) (d r p : String), resolvePath g d r = some p → p ∈ keys g) ∧
    (∀ n ∈ wOut.graph, (∀ q ∈ n.imports, q ∈ keys wOut.graph) ∧
      (∀ q ∈ n.importedBy, q ∈ keys wOut.graph)) :=
  claim_nodes_are_discovered_files (show build "/app" wTree = .ok wOut from rfl) rfl

theorem claim_error_handling_witness :
    ∃ out, build "/app" wTree = .ok out ∧
      (∀ p m, (p, Except.error m) ∈ wFiles →
        ∃ n, mapGet out.graph p = some n ∧ n.imports = [] ∧ n.symbols = []) ∧
      (∀ q ast, (q, Except.ok ast) ∈ wFiles →
        ∃ n, mapGet out.graph q = some n ∧ n.symbols = collectSymbols ast) :=
  (claim_error_handling "/app" wTree).1 wFiles rfl (by decide)

theorem claim_getRelationships_spec_witness :
    getRelationships wOut.graph "/app" "index.ts" = some (renderNode "/app" wNodeIndex) :=
  (claim_getRelationships_spec wOut.graph "/app" "index.ts").1 wNodeIndex rfl

theorem claim_getSummary_spec_witness :
    (⟨pathRelative "/app" wNodeReal.path, wNodeReal.importedBy.length⟩ : SummaryEntry) ∈
        (getSummary wOut.graph "/app").mostReferencedFiles ∨
      ∀ e ∈ (getSummary wOut.graph "/app").mostReferencedFiles,
        wNodeReal.importedBy.length ≤ e.referencedBy :=
  (claim_getSummary_spec wOut.graph "/app").2.2.2.2.2 wNodeReal (by decide)

theorem claim_discovery_filters_amended_witness :
    getAllFilesEntries (.cons "node_modules" (.dir .nil) .nil) "/app" =
        getAllFilesEntries .nil "/app" ∧
      ("coverage" ∈ excludedDirs ↔
        ("coverage" = "node_modules" ∨ "coverage" = ".git" ∨ "coverage" = "dist")) :=
  ⟨claim_discovery_filters_amended.2.1 "node_modules" .nil .nil "/app" (by decide),
   claim_discovery_filters_amended.1 "coverage"⟩

theorem claim_empty_query_witness :
    ∃ n, wOut.graph.head? = some n ∧
      getRelationships wOut.graph wOut.root "" = some (renderNode wOut.root n) :=
  claim_empty_query (show build "/app" wTree = .ok wOut from rfl) (by decide) (by decide)

end ProjectGraph
